import Mathlib

/-!
Verification development for the package-manager repository.

Shallow embedding of the resolution and archival core:
* `internal/controller/helper.go` — version parsing, comparison, constraint
  matching and best-candidate selection;
* `internal/utils/files.go` and the archive codec — tar entry naming and
  traversal-safe extraction;
* `internal/utils/patterns.go` — glob collection with exclude filtering and
  recursive `**` expansion.

Go strings are modelled as `List Char` (claims only exercise ASCII, where
byte-level and rune-level processing of Go strings coincide).  File contents
are modelled as `List Nat` (byte lists).  Filesystem effects are modelled by
explicit state passing; fallible Go functions return `Except`.
-/

set_option linter.unusedVariables false

namespace PM

instance {ε α : Type _} [DecidableEq ε] [DecidableEq α] : DecidableEq (Except ε α)
  | .error e, .error f =>
    if h : e = f then .isTrue (by rw [h]) else .isFalse (by simp [h])
  | .error _, .ok _ => .isFalse (by simp)
  | .ok _, .error _ => .isFalse (by simp)
  | .ok a, .ok b =>
    if h : a = b then .isTrue (by rw [h]) else .isFalse (by simp [h])

/-- Go strings, modelled as lists of characters. -/
abbrev Str := List Char

/-- Bytes of a file. -/
abbrev Bytes := List Nat

/-- Embeds Go `unicode.IsSpace` restricted to the Latin-1 range (the full
function also accepts some exotic Unicode spaces; the repository only ever
trims ASCII whitespace). -/
def goIsSpace (c : Char) : Bool :=
  c == ' ' || c == '\t' || c == '\n' || c == '\u000B' || c == '\u000C' ||
  c == '\r' || c == '\u0085' || c == ' '

/-- Embeds Go `strings.TrimSpace`: drop whitespace from both ends. -/
def goTrimSpace (s : Str) : Str :=
  ((s.dropWhile goIsSpace).reverse.dropWhile goIsSpace).reverse

/-- Embeds Go `strings.Split(s, sep)` for a one-character separator:
splits around every occurrence, keeping empty parts (`Split("", sep) = [""]`). -/
def splitOnChar (sep : Char) : Str → List Str
  | [] => [[]]
  | c :: rest =>
    if c = sep then [] :: splitOnChar sep rest
    else
      match splitOnChar sep rest with
      | p :: ps => (c :: p) :: ps
      | [] => [[c]]

theorem splitOnChar_ne_nil (sep : Char) (s : Str) : splitOnChar sep s ≠ [] := by
  cases s with
  | nil => simp [splitOnChar]
  | cons c rest =>
    simp only [splitOnChar]
    split
    · simp
    · cases h : splitOnChar sep rest <;> simp

/-- Embeds Go `strconv.Atoi` (equivalently `ParseInt(s, 10, 64)` on a 64-bit
platform): an optional single `+`/`-` sign followed by one or more decimal
digits; errors on anything else and on values outside the `int64` range. -/
def goAtoi (s : Str) : Except Unit Int :=
  match s with
  | [] => .error ()
  | c :: rest =>
    let neg : Bool := c == '-'
    let digits : Str := if c == '-' || c == '+' then rest else s
    if digits = [] then .error ()
    else if digits.all Char.isDigit then
      let n : Nat := digits.foldl (fun acc d => acc * 10 + (d.toNat - '0'.toNat)) 0
      if neg then
        if n ≤ 2 ^ 63 then .ok (-(n : Int)) else .error ()
      else
        if n ≤ 2 ^ 63 - 1 then .ok (n : Int) else .error ()
    else .error ()

/-- Errors of `parseVersion`, one per `fmt.Errorf` site in the source. -/
inductive VersionErr where
  | invalidFormat
  | invalidMajor
  | invalidMajorNeg
  | invalidMinor
  | invalidMinorNeg
  | invalidPatch
  | invalidPatchNeg
  deriving DecidableEq, Repr

/-- Embeds the `Version` struct of `internal/controller/helper.go`:
major/minor/patch components (Go `int`) plus the raw input string. -/
structure Version where
  Major : Int
  Minor : Int
  Patch : Int
  Raw : Str
  deriving DecidableEq, Repr

/-- Embeds `parseVersion` of `internal/controller/helper.go`: split on `.`,
require 2 or 3 parts, `Atoi` each part and reject negatives; a missing patch
part defaults to `0`; the raw input is stored verbatim. -/
def parseVersion (versionStr : Str) : Except VersionErr Version :=
  match splitOnChar '.' versionStr with
  | [p0, p1] =>
    match goAtoi p0 with
    | .error _ => .error .invalidMajor
    | .ok major =>
      if major < 0 then .error .invalidMajorNeg
      else
        match goAtoi p1 with
        | .error _ => .error .invalidMinor
        | .ok minor =>
          if minor < 0 then .error .invalidMinorNeg
          else .ok { Major := major, Minor := minor, Patch := 0, Raw := versionStr }
  | [p0, p1, p2] =>
    match goAtoi p0 with
    | .error _ => .error .invalidMajor
    | .ok major =>
      if major < 0 then .error .invalidMajorNeg
      else
        match goAtoi p1 with
        | .error _ => .error .invalidMinor
        | .ok minor =>
          if minor < 0 then .error .invalidMinorNeg
          else
            match goAtoi p2 with
            | .error _ => .error .invalidPatch
            | .ok patch =>
              if patch < 0 then .error .invalidPatchNeg
              else .ok { Major := major, Minor := minor, Patch := patch, Raw := versionStr }
  | _ => .error .invalidFormat

/-- Embeds `Version.Compare`: lexicographic on (major, minor, patch),
returning -1, 0 or 1. -/
def Version.Compare (v other : Version) : Int :=
  if v.Major ≠ other.Major then (if v.Major > other.Major then 1 else -1)
  else if v.Minor ≠ other.Minor then (if v.Minor > other.Minor then 1 else -1)
  else if v.Patch ≠ other.Patch then (if v.Patch > other.Patch then 1 else -1)
  else 0

/-- Embeds `Version.String`: returns the stored raw string unchanged. -/
def Version.Display (v : Version) : Str := v.Raw

/-- The five constraint operators recognised by `satisfiesConstraint`
(the Go code stores them as strings; the final `switch` has an unreachable
default since the operator is always one of these five). -/
inductive ConstraintOp where
  | ge | le | gt | lt | eq
  deriving DecidableEq, Repr

/-- Embeds `Version.satisfiesConstraint`: empty string accepts everything;
otherwise trim, strip a leading operator (priority `>=`, `<=`, `>`, `<`, `=`,
defaulting to exact match), trim and parse the target version (parse failure
fails closed to `false`), then apply the operator to `Compare`. -/
def Version.satisfiesConstraint (v : Version) (constraint : Str) : Bool :=
  if constraint = [] then true
  else
    let c := goTrimSpace constraint
    let p : ConstraintOp × Str :=
      if (['>', '=']).isPrefixOf c then (.ge, c.drop 2)
      else if (['<', '=']).isPrefixOf c then (.le, c.drop 2)
      else if (['>']).isPrefixOf c then (.gt, c.drop 1)
      else if (['<']).isPrefixOf c then (.lt, c.drop 1)
      else if (['=']).isPrefixOf c then (.eq, c.drop 1)
      else (.eq, c)
    match parseVersion (goTrimSpace p.2) with
    | .error _ => false
    | .ok target =>
      let comparison := v.Compare target
      match p.1 with
      | .ge => decide (comparison ≥ 0)
      | .le => decide (comparison ≤ 0)
      | .gt => decide (comparison > 0)
      | .lt => decide (comparison < 0)
      | .eq => decide (comparison = 0)

/-- Embeds `extractVersionFromFilename`: requires the `<packageName>-` front
part and `.tar.gz` end part, then slices out the version substring. -/
def extractVersionFromFilename (filename packageName : Str) : Except Unit Str :=
  let pfx := packageName ++ ['-']
  let sfx : Str := (".tar.gz").data
  if pfx.isPrefixOf filename && sfx.isSuffixOf filename then
    .ok ((filename.drop pfx.length).take (filename.length - pfx.length - sfx.length))
  else .error ()

/-- Embeds the `PackageCandidate` struct. -/
structure PackageCandidate where
  Filename : Str
  Version : Version
  deriving DecidableEq, Repr

/-- Embeds the candidate-building loop of `findBestPackageVersion`
(`helper.go` lines 271–290): keep files with the `<name>-` front part and
`.tar.gz` end part whose embedded version parses; files whose version fails
to parse are skipped (source prints a warning and `continue`s). -/
def buildCandidates (files : List Str) (pkgName : Str) : List PackageCandidate :=
  match files with
  | [] => []
  | file :: rest =>
    let tail := buildCandidates rest pkgName
    if (pkgName ++ ['-']).isPrefixOf file && ((".tar.gz").data).isSuffixOf file then
      match extractVersionFromFilename file pkgName with
      | .error _ => tail
      | .ok versionStr =>
        match parseVersion versionStr with
        | .error _ => tail
        | .ok version => { Filename := file, Version := version } :: tail
    else tail

/-- One insertion step of the descending sort over candidates, using the
source comparator `less i j := vᵢ.Compare vⱼ > 0`. -/
def insertDesc (c : PackageCandidate) : List PackageCandidate → List PackageCandidate
  | [] => [c]
  | d :: rest =>
    if c.Version.Compare d.Version > 0 then c :: d :: rest else d :: insertDesc c rest

/-- Embeds the `sort.Slice(validCandidates, less)` call with
`less i j := vᵢ.Compare vⱼ > 0` (highest version first).  `sort.Slice` is an
unspecified comparison sort; we realise it as an insertion sort with the same
comparator — every property proved below about the sorted result depends only
on the comparator, not on which comparison sort is used. -/
def sortCandidatesDesc : List PackageCandidate → List PackageCandidate
  | [] => []
  | c :: rest => insertDesc c (sortCandidatesDesc rest)

/-- Errors of `findBestPackageVersion`, one per `fmt.Errorf` site. -/
inductive SelectErr where
  | noPackagesFound
  | noVersionSatisfiesConstraint
  deriving DecidableEq, Repr

/-- Embeds `findBestPackageVersion` (`helper.go` lines 259–323), with the
remote listing supplied as the `files` argument (the source obtains it from
`sshClient.ListFiles`, an external collaborator): build candidates, fail with
`noPackagesFound` when none, filter by the constraint, fail with
`noVersionSatisfiesConstraint` when the filtered set is empty, sort
descending by version and return the first filename. -/
def findBestPackageVersion (files : List Str) (pkgName pkgVersion : Str) :
    Except SelectErr Str :=
  let candidates := buildCandidates files pkgName
  if candidates = [] then .error .noPackagesFound
  else
    let validCandidates := candidates.filter
      (fun c => c.Version.satisfiesConstraint pkgVersion)
    if validCandidates = [] then .error .noVersionSatisfiesConstraint
    else
      match sortCandidatesDesc validCandidates with
      | [] => .error .noVersionSatisfiesConstraint
      | best :: _ => .ok best.Filename

theorem goTrimSpace_eq_nil_of_all_space (c : Str) (h : ∀ ch ∈ c, goIsSpace ch) :
    goTrimSpace c = [] := by
  unfold goTrimSpace
  have h1 : c.dropWhile goIsSpace = [] := List.dropWhile_eq_nil_iff.mpr h
  simp [h1]

/-- C4 counterexample: `" "` is a non-empty whitespace-only constraint string,
yet `satisfiesConstraint` returns `false` on it (the empty-string test in the
source runs before the `TrimSpace`, so a whitespace-only constraint falls
through to a failing parse of the empty target version). -/
theorem satisfiesConstraint_space_counterexample :
    ((" ").data ≠ ([] : Str)) ∧ (∀ ch ∈ (" ").data, goIsSpace ch) ∧
    Version.satisfiesConstraint
      { Major := 1, Minor := 2, Patch := 3, Raw := ("1.2.3").data } ((" ").data) = false := by
  refine ⟨by decide, by decide, by decide⟩

/-- C4 amended: an exactly-empty constraint string accepts every version, but
a non-empty whitespace-only constraint string is rejected (it trims to the
empty string, which then fails to parse as an exact-match target version). -/
theorem satisfiesConstraint_empty_or_space (v : Version) :
    v.satisfiesConstraint [] = true ∧
    ∀ c : Str, c ≠ [] → (∀ ch ∈ c, goIsSpace ch) →
      v.satisfiesConstraint c = false := by
  constructor
  · simp [Version.satisfiesConstraint]
  · intro c hne hsp
    have htrim : goTrimSpace c = [] := goTrimSpace_eq_nil_of_all_space c hsp
    simp only [Version.satisfiesConstraint, if_neg hne, htrim]
    simp [List.isPrefixOf, goTrimSpace, parseVersion, splitOnChar]

/-- C4 witness: the amended theorem applied at a concrete version and at the
concrete whitespace-only constraint `" "`. -/
theorem satisfiesConstraint_empty_or_space_witness :
    Version.satisfiesConstraint
      { Major := 1, Minor := 2, Patch := 3, Raw := ("1.2.3").data } [] = true ∧
    Version.satisfiesConstraint
      { Major := 1, Minor := 2, Patch := 3, Raw := ("1.2.3").data } ((" ").data) = false :=
  ⟨(satisfiesConstraint_empty_or_space _).1,
   (satisfiesConstraint_empty_or_space _).2 ((" ").data) (by decide) (by decide)⟩

/-- C9: `Compare` looks only at the (major, minor, patch) triple and ignores
the stored raw string; concretely, the versions parsed from `"1.5"` and
`"1.5.0"` have equal triples, compare as `0`, and the version parsed from
`"1.5.0"` satisfies the exact-match constraint `"=1.5"`. -/
theorem compare_ignores_raw :
    (∀ v w : Version, v.Major = w.Major → v.Minor = w.Minor → v.Patch = w.Patch →
      v.Compare w = 0) ∧
    parseVersion (("1.5").data) =
      .ok { Major := 1, Minor := 5, Patch := 0, Raw := ("1.5").data } ∧
    parseVersion (("1.5.0").data) =
      .ok { Major := 1, Minor := 5, Patch := 0, Raw := ("1.5.0").data } ∧
    Version.Compare { Major := 1, Minor := 5, Patch := 0, Raw := ("1.5").data }
      { Major := 1, Minor := 5, Patch := 0, Raw := ("1.5.0").data } = 0 ∧
    Version.satisfiesConstraint
      { Major := 1, Minor := 5, Patch := 0, Raw := ("1.5.0").data } (("=1.5").data) = true := by
  refine ⟨?_, by decide, by decide, by decide, by decide⟩
  intro v w h1 h2 h3
  simp [Version.Compare, h1, h2, h3]

/-- C9 witness: the triple-equality implication of `compare_ignores_raw`
discharged at two concrete versions with different raw strings. -/
theorem compare_ignores_raw_witness :
    Version.Compare { Major := 1, Minor := 5, Patch := 0, Raw := ("1.5").data }
      { Major := 1, Minor := 5, Patch := 0, Raw := ("01.05.00").data } = 0 :=
  compare_ignores_raw.1 _ _ rfl rfl rfl

theorem isDigit_ne_plus {d : Char} (h : d.isDigit = true) : (d == '+') = false := by
  by_contra hne
  have hb : (d == '+') = true := by
    cases hd : (d == '+') with
    | true => rfl
    | false => exact absurd hd hne
  have : d = '+' := by exact eq_of_beq hb
  subst this
  exact absurd h (by decide)

theorem isDigit_ne_minus {d : Char} (h : d.isDigit = true) : (d == '-') = false := by
  by_contra hne
  have hb : (d == '-') = true := by
    cases hd : (d == '-') with
    | true => rfl
    | false => exact absurd hd hne
  have : d = '-' := by exact eq_of_beq hb
  subst this
  exact absurd h (by decide)

theorem goAtoi_plus {p : Str} {n : Int} (h : goAtoi p = .ok n)
    (hd : ∃ d, p.head? = some d ∧ d.isDigit) : goAtoi ('+' :: p) = .ok n := by
  obtain ⟨d, hhd, hdig⟩ := hd
  cases p with
  | nil => simp at hhd
  | cons c rest =>
    simp only [List.head?_cons, Option.some.injEq] at hhd
    subst hhd
    have hplus := isDigit_ne_plus hdig
    have hminus := isDigit_ne_minus hdig
    simp only [goAtoi, hplus, hminus, Bool.or_self, Bool.false_or, if_false,
      Bool.or_false, ite_false] at h ⊢
    simpa using h

theorem isDigit_ne_of {d x : Char} (h : d.isDigit = true) (hx : x.isDigit = false) :
    d ≠ x := by
  intro he
  subst he
  rw [h] at hx
  cases hx

theorem parseVersion_ok_two {s p0 p1 : Str} (hsp : splitOnChar '.' s = [p0, p1])
    (v : Version) :
    parseVersion s = .ok v ↔
      goAtoi p0 = .ok v.Major ∧ 0 ≤ v.Major ∧ goAtoi p1 = .ok v.Minor ∧ 0 ≤ v.Minor ∧
      v.Patch = 0 ∧ v.Raw = s := by
  simp only [parseVersion, hsp]
  rcases ha0 : goAtoi p0 with u | major
  · simp [ha0]
  · simp only [ha0]
    by_cases h0 : major < 0
    · simp only [if_pos h0]
      constructor
      · intro h; exact absurd h (by simp)
      · rintro ⟨hM, hM0, -⟩
        exfalso
        injection hM with hM
        omega
    · simp only [if_neg h0]
      rcases ha1 : goAtoi p1 with u | minor
      · simp [ha1]
      · simp only [ha1]
        by_cases h1 : minor < 0
        · simp only [if_pos h1]
          constructor
          · intro h; exact absurd h (by simp)
          · rintro ⟨-, -, hMin, hMin0, -⟩
            exfalso
            injection hMin with hMin
            omega
        · simp only [if_neg h1]
          constructor
          · intro h
            injection h with h
            subst h
            exact ⟨rfl, not_lt.mp h0, rfl, not_lt.mp h1, rfl, rfl⟩
          · rintro ⟨hM, hM0, hMin, hMin0, hP, hR⟩
            injection hM with hM
            injection hMin with hMin
            cases v
            simp_all

theorem parseVersion_ok_three {s p0 p1 p2 : Str}
    (hsp : splitOnChar '.' s = [p0, p1, p2]) (v : Version) :
    parseVersion s = .ok v ↔
      goAtoi p0 = .ok v.Major ∧ 0 ≤ v.Major ∧ goAtoi p1 = .ok v.Minor ∧ 0 ≤ v.Minor ∧
      goAtoi p2 = .ok v.Patch ∧ 0 ≤ v.Patch ∧ v.Raw = s := by
  simp only [parseVersion, hsp]
  rcases ha0 : goAtoi p0 with u | major
  · simp [ha0]
  · simp only [ha0]
    by_cases h0 : major < 0
    · simp only [if_pos h0]
      constructor
      · intro h; exact absurd h (by simp)
      · rintro ⟨hM, hM0, -⟩
        exfalso
        injection hM with hM
        omega
    · simp only [if_neg h0]
      rcases ha1 : goAtoi p1 with u | minor
      · simp [ha1]
      · simp only [ha1]
        by_cases h1 : minor < 0
        · simp only [if_pos h1]
          constructor
          · intro h; exact absurd h (by simp)
          · rintro ⟨-, -, hMin, hMin0, -⟩
            exfalso
            injection hMin with hMin
            omega
        · simp only [if_neg h1]
          rcases ha2 : goAtoi p2 with u | patch
          · simp [ha2]
          · simp only [ha2]
            by_cases h2 : patch < 0
            · simp only [if_pos h2]
              constructor
              · intro h; exact absurd h (by simp)
              · rintro ⟨-, -, -, -, hP, hP0, -⟩
                exfalso
                injection hP with hP
                omega
            · simp only [if_neg h2]
              constructor
              · intro h
                injection h with h
                subst h
                exact ⟨rfl, not_lt.mp h0, rfl, not_lt.mp h1, rfl, not_lt.mp h2, rfl⟩
              · rintro ⟨hM, hM0, hMin, hMin0, hP, hP0, hR⟩
                injection hM with hM
                injection hMin with hMin
                injection hP with hP
                cases v
                simp_all

/-- C6: `parseVersion` succeeds exactly on strings splitting on `.` into 2 or
3 parts each accepted by `Atoi` with a non-negative value; on success the raw
input is stored verbatim, `Display` returns it unchanged, and a 2-part input
gets patch 0. -/
theorem parseVersion_spec (s : Str) :
    ((∃ v, parseVersion s = .ok v) ↔
      (((splitOnChar '.' s).length = 2 ∨ (splitOnChar '.' s).length = 3) ∧
       ∀ p ∈ splitOnChar '.' s, ∃ n : Int, goAtoi p = .ok n ∧ 0 ≤ n)) ∧
    ∀ v, parseVersion s = .ok v →
      v.Raw = s ∧ v.Display = s ∧ ((splitOnChar '.' s).length = 2 → v.Patch = 0) := by
  rcases hsp : splitOnChar '.' s with _ | ⟨p0, _ | ⟨p1, _ | ⟨p2, _ | ⟨p3, rest⟩⟩⟩⟩
  · exact absurd hsp (splitOnChar_ne_nil '.' s)
  · constructor
    · simp [parseVersion, hsp]
    · intro v hv
      simp only [parseVersion, hsp] at hv
      exact absurd hv (by simp)
  · constructor
    · constructor
      · rintro ⟨v, hv⟩
        rw [parseVersion_ok_two hsp v] at hv
        obtain ⟨hM, hM0, hMin, hMin0, hP, hR⟩ := hv
        refine ⟨by simp, ?_⟩
        intro p hp
        simp only [List.mem_cons, List.not_mem_nil, or_false] at hp
        rcases hp with rfl | rfl
        · exact ⟨v.Major, hM, hM0⟩
        · exact ⟨v.Minor, hMin, hMin0⟩
      · rintro ⟨-, hall⟩
        obtain ⟨m, hm, hm0⟩ := hall p0 (by simp)
        obtain ⟨n, hn, hn0⟩ := hall p1 (by simp)
        exact ⟨{ Major := m, Minor := n, Patch := 0, Raw := s },
          (parseVersion_ok_two hsp _).mpr ⟨hm, hm0, hn, hn0, rfl, rfl⟩⟩
    · intro v hv
      rw [parseVersion_ok_two hsp v] at hv
      exact ⟨hv.2.2.2.2.2, hv.2.2.2.2.2, fun _ => hv.2.2.2.2.1⟩
  · constructor
    · constructor
      · rintro ⟨v, hv⟩
        rw [parseVersion_ok_three hsp v] at hv
        obtain ⟨hM, hM0, hMin, hMin0, hP, hP0, hR⟩ := hv
        refine ⟨by simp, ?_⟩
        intro p hp
        simp only [List.mem_cons, List.not_mem_nil, or_false] at hp
        rcases hp with rfl | rfl | rfl
        · exact ⟨v.Major, hM, hM0⟩
        · exact ⟨v.Minor, hMin, hMin0⟩
        · exact ⟨v.Patch, hP, hP0⟩
      · rintro ⟨-, hall⟩
        obtain ⟨m, hm, hm0⟩ := hall p0 (by simp)
        obtain ⟨n, hn, hn0⟩ := hall p1 (by simp)
        obtain ⟨q, hq, hq0⟩ := hall p2 (by simp)
        exact ⟨{ Major := m, Minor := n, Patch := q, Raw := s },
          (parseVersion_ok_three hsp _).mpr ⟨hm, hm0, hn, hn0, hq, hq0, rfl⟩⟩
    · intro v hv
      rw [parseVersion_ok_three hsp v] at hv
      refine ⟨hv.2.2.2.2.2.2, hv.2.2.2.2.2.2, fun h2 => ?_⟩
      simp at h2
  · constructor
    · constructor
      · rintro ⟨v, hv⟩
        simp only [parseVersion, hsp] at hv
        exact absurd hv (by simp)
      · rintro ⟨hlen, -⟩
        simp at hlen
    · intro v hv
      simp only [parseVersion, hsp] at hv
      exact absurd hv (by simp)

/-- C6 witness: `parseVersion_spec` at the concrete valid 2-part input
`"1.5"`, discharging the success hypothesis. -/
theorem parseVersion_spec_witness :
    Version.Raw { Major := 1, Minor := 5, Patch := 0, Raw := ("1.5").data } = ("1.5").data ∧
    Version.Display { Major := 1, Minor := 5, Patch := 0, Raw := ("1.5").data } = ("1.5").data ∧
    ((splitOnChar '.' (("1.5").data)).length = 2 →
      Version.Patch { Major := 1, Minor := 5, Patch := 0, Raw := ("1.5").data } = 0) :=
  (parseVersion_spec (("1.5").data)).2 _ (by decide)

theorem splitOnChar_cons_of_ne {sep c : Char} {t p : Str} {ps : List Str}
    (hc : ¬c = sep) (hps : splitOnChar sep t = p :: ps) :
    splitOnChar sep (c :: t) = (c :: p) :: ps := by
  simp [splitOnChar, hc, hps]

/-- C10: version components may carry an explicit leading `+` because each
component goes through the sign-accepting `Atoi` and only a strictly negative
result is rejected: prepending `+` to any successfully parsed version string
that starts with a digit parses to the same numeric triple, `"+1.2.3"`
parses to (1,2,3), and `"-1.2.3"` fails (negative major). -/
theorem parseVersion_plus_sign :
    (∀ (s : Str) (v : Version), parseVersion s = .ok v →
      (∃ d, s.head? = some d ∧ d.isDigit) →
      parseVersion ('+' :: s) =
        .ok { Major := v.Major, Minor := v.Minor, Patch := v.Patch, Raw := '+' :: s }) ∧
    parseVersion (("+1.2.3").data) =
      .ok { Major := 1, Minor := 2, Patch := 3, Raw := ("+1.2.3").data } ∧
    parseVersion (("-1.2.3").data) = .error .invalidMajorNeg := by
  refine ⟨?_, by decide, by decide⟩
  intro s v h hd
  obtain ⟨d, hhd, hdig⟩ := hd
  cases s with
  | nil => simp at hhd
  | cons c t =>
    simp only [List.head?_cons, Option.some.injEq] at hhd
    subst hhd
    have hcd : ¬c = '.' := isDigit_ne_of hdig (by decide)
    have hplusdot : ¬('+' : Char) = '.' := by decide
    obtain ⟨p, ps, hps⟩ : ∃ p ps, splitOnChar '.' t = p :: ps := by
      cases h' : splitOnChar '.' t with
      | nil => exact absurd h' (splitOnChar_ne_nil '.' t)
      | cons a b => exact ⟨a, b, rfl⟩
    have hsp : splitOnChar '.' (c :: t) = (c :: p) :: ps :=
      splitOnChar_cons_of_ne hcd hps
    have hsp2 : splitOnChar '.' ('+' :: c :: t) = ('+' :: c :: p) :: ps :=
      splitOnChar_cons_of_ne hplusdot hsp
    have hdhead : ∃ e, (c :: p).head? = some e ∧ e.isDigit := ⟨c, rfl, hdig⟩
    rcases ps with _ | ⟨p1, _ | ⟨p2, _ | ⟨p3, rest⟩⟩⟩
    · simp only [parseVersion, hsp] at h
      exact absurd h (by simp)
    · rw [parseVersion_ok_two hsp v] at h
      obtain ⟨hM, hM0, hMin, hMin0, hP, hR⟩ := h
      rw [parseVersion_ok_two hsp2]
      exact ⟨goAtoi_plus hM hdhead, hM0, hMin, hMin0, hP, rfl⟩
    · rw [parseVersion_ok_three hsp v] at h
      obtain ⟨hM, hM0, hMin, hMin0, hP, hP0, hR⟩ := h
      rw [parseVersion_ok_three hsp2]
      exact ⟨goAtoi_plus hM hdhead, hM0, hMin, hMin0, hP, hP0, rfl⟩
    · simp only [parseVersion, hsp] at h
      exact absurd h (by simp)

theorem compare_nonpos_iff (a b : Version) :
    a.Compare b ≤ 0 ↔
      (a.Major < b.Major ∨ (a.Major = b.Major ∧
        (a.Minor < b.Minor ∨ (a.Minor = b.Minor ∧ a.Patch ≤ b.Patch)))) := by
  unfold Version.Compare
  split_ifs <;> omega

theorem compare_pos_iff (a b : Version) :
    0 < a.Compare b ↔
      (b.Major < a.Major ∨ (b.Major = a.Major ∧
        (b.Minor < a.Minor ∨ (b.Minor = a.Minor ∧ b.Patch < a.Patch)))) := by
  unfold Version.Compare
  split_ifs <;> omega

theorem sortCandidatesDesc_head_max (l : List PackageCandidate) (hne : l ≠ []) :
    ∃ b tl, sortCandidatesDesc l = b :: tl ∧ b ∈ l ∧
      ∀ e ∈ l, e.Version.Compare b.Version ≤ 0 := by
  induction l with
  | nil => exact absurd rfl hne
  | cons c rest ih =>
    rcases h : rest with _ | ⟨r, rs⟩
    · refine ⟨c, [], by simp [sortCandidatesDesc, insertDesc], by simp, ?_⟩
      intro e he
      simp [h] at he
      subst he
      rw [compare_nonpos_iff]
      omega
    · obtain ⟨b, tl, hsort, hmem, hmax⟩ := ih (by simp [h])
      rw [← h] at *
      by_cases hc : 0 < c.Version.Compare b.Version
      · refine ⟨c, b :: tl, ?_, by simp, ?_⟩
        · simp only [sortCandidatesDesc, hsort, insertDesc, if_pos hc]
        · intro e he
          rcases List.mem_cons.mp he with rfl | he
          · rw [compare_nonpos_iff]; omega
          · have h1 := hmax e he
            rw [compare_nonpos_iff] at h1 ⊢
            rw [compare_pos_iff] at hc
            omega
      · refine ⟨b, insertDesc c tl, ?_, List.mem_cons_of_mem _ hmem, ?_⟩
        · simp only [sortCandidatesDesc, hsort, insertDesc, if_neg hc]
        · intro e he
          rcases List.mem_cons.mp he with rfl | he
          · exact not_lt.mp hc
          · exact hmax e he

/-- C1: whenever some remote filename matches `<packageName>-<version>.tar.gz`
with a parseable version satisfying the constraint, `findBestPackageVersion`
returns the filename of a satisfying candidate whose version is maximal under
`Compare`; when parseable candidates exist but none satisfies, it fails with
`noVersionSatisfiesConstraint`; concretely, the filenames
`pkg-{1.0.0, 2.0.0, 1.5.0}.tar.gz` under constraint `>=1.2.0` select
`pkg-2.0.0.tar.gz`. -/
theorem findBestPackageVersion_spec (files : List Str) (pkgName constraint : Str) :
    ((buildCandidates files pkgName).filter
        (fun c => c.Version.satisfiesConstraint constraint) ≠ [] →
      ∃ c, c ∈ (buildCandidates files pkgName).filter
            (fun c => c.Version.satisfiesConstraint constraint) ∧
        findBestPackageVersion files pkgName constraint = .ok c.Filename ∧
        ∀ e ∈ (buildCandidates files pkgName).filter
            (fun c => c.Version.satisfiesConstraint constraint),
          e.Version.Compare c.Version ≤ 0) ∧
    (buildCandidates files pkgName ≠ [] →
      (buildCandidates files pkgName).filter
        (fun c => c.Version.satisfiesConstraint constraint) = [] →
      findBestPackageVersion files pkgName constraint =
        .error .noVersionSatisfiesConstraint) ∧
    findBestPackageVersion
      [("pkg-1.0.0.tar.gz").data, ("pkg-2.0.0.tar.gz").data, ("pkg-1.5.0.tar.gz").data]
      (("pkg").data) ((">=1.2.0").data) = .ok (("pkg-2.0.0.tar.gz").data) := by
  refine ⟨?_, ?_, by decide⟩
  · intro hval
    have hcand : buildCandidates files pkgName ≠ [] := by
      intro h
      rw [h] at hval
      exact hval rfl
    obtain ⟨b, tl, hsort, hmem, hmax⟩ := sortCandidatesDesc_head_max _ hval
    refine ⟨b, hmem, ?_, hmax⟩
    simp only [findBestPackageVersion, if_neg hcand, if_neg hval, hsort]
  · intro hcand hval
    simp only [findBestPackageVersion, if_neg hcand, hval]
    simp

/-- C1 witness: `findBestPackageVersion_spec` discharged at the concrete
input where parseable candidates exist but none satisfies `>=3.0.0`. -/
theorem findBestPackageVersion_spec_witness :
    findBestPackageVersion
      [("pkg-1.0.0.tar.gz").data, ("pkg-2.0.0.tar.gz").data, ("pkg-1.5.0.tar.gz").data]
      (("pkg").data) ((">=3.0.0").data) = .error .noVersionSatisfiesConstraint :=
  (findBestPackageVersion_spec _ _ _).2.1 (by decide) (by decide)

/-- C5 counterexample: `pkg-abc.tar.gz` matches the `<packageName>-` /
`.tar.gz` shape for package `pkg`, yet `findBestPackageVersion` still fails
with `noPackagesFound` because the embedded version `abc` does not parse and
the file is skipped, leaving zero candidates. -/
theorem noPackagesFound_shape_counterexample :
    ((("pkg").data ++ ['-']).isPrefixOf (("pkg-abc.tar.gz").data) = true) ∧
    (((".tar.gz").data).isSuffixOf (("pkg-abc.tar.gz").data) = true) ∧
    findBestPackageVersion [("pkg-abc.tar.gz").data] (("pkg").data) [] =
      .error .noPackagesFound := by
  refine ⟨by decide, by decide, by decide⟩

/-- C5 amended: `findBestPackageVersion` fails with `noPackagesFound` exactly
when zero filenames both match the prefix/suffix shape and carry a parseable
embedded version; a shape-matching filename with an unparseable version is
skipped (not fatal by itself), but it contributes no candidate, so
`noPackagesFound` can still occur when only such filenames match the shape. -/
theorem noPackagesFound_iff (files : List Str) (pkgName pkgVersion : Str) :
    findBestPackageVersion files pkgName pkgVersion = .error .noPackagesFound ↔
      buildCandidates files pkgName = [] := by
  by_cases hcand : buildCandidates files pkgName = []
  · simp [findBestPackageVersion, hcand]
  · simp only [findBestPackageVersion, if_neg hcand]
    by_cases hval : (buildCandidates files pkgName).filter
        (fun c => c.Version.satisfiesConstraint pkgVersion) = []
    · simp [hval, hcand]
    · obtain ⟨b, tl, hsort, -, -⟩ := sortCandidatesDesc_head_max _ hval
      simp only [if_neg hval, hsort]
      simp [hcand]

/-- C10 witness: the generic plus-sign implication of `parseVersion_plus_sign`
discharged at the concrete parse of `"1.2.3"`. -/
theorem parseVersion_plus_sign_witness :
    parseVersion ('+' :: ("1.2.3").data) =
      .ok { Major := 1, Minor := 2, Patch := 3, Raw := '+' :: ("1.2.3").data } :=
  parseVersion_plus_sign.1 (("1.2.3").data)
    { Major := 1, Minor := 2, Patch := 3, Raw := ("1.2.3").data } (by decide) (by decide)

example : parseVersion (("1.0.12").data) =
    .ok { Major := 1, Minor := 0, Patch := 12, Raw := ("1.0.12").data } := by decide

example : parseVersion (("1.5").data) =
    .ok { Major := 1, Minor := 5, Patch := 0, Raw := ("1.5").data } := by decide

example : (parseVersion (("1.5.0").data)).toOption.map (fun v => v.satisfiesConstraint (("=1.5").data)) = some true := by decide

example :
    findBestPackageVersion
      [("pkg-1.0.0.tar.gz").data, ("pkg-2.0.0.tar.gz").data, ("pkg-1.5.0.tar.gz").data]
      (("pkg").data) ((">=1.2.0").data) = .ok (("pkg-2.0.0.tar.gz").data) := by decide

/-! ### Path algebra: Go `path/filepath` lexical operations (Unix rules) -/

/-- Joins path segments with `/` (inverse of `splitOnChar '/'` on
slash-free segments). -/
def joinSlash : List Str → Str
  | [] => []
  | [s] => s
  | s :: t :: rest => s ++ '/' :: joinSlash (t :: rest)

/-- The stack-based `..` resolution at the heart of Go `filepath.Clean`:
`acc` holds the processed segments in reverse; a `..` pops a non-`..`
segment, is dropped at the root of a rooted path, and is kept otherwise. -/
def cleanSegs (rooted : Bool) (acc : List Str) : List Str → List Str
  | [] => acc.reverse
  | s :: rest =>
    if s = ['.', '.'] then
      match acc with
      | [] =>
        if rooted then cleanSegs rooted [] rest
        else cleanSegs rooted [['.', '.']] rest
      | a :: as =>
        if a = ['.', '.'] then cleanSegs rooted (s :: acc) rest
        else cleanSegs rooted as rest
    else cleanSegs rooted (s :: acc) rest

/-- Embeds Go `filepath.Clean` (Unix): shortest lexically-equivalent path —
drop empty and `.` elements, resolve `..` against preceding elements (and
against the root for rooted paths), yielding `.` for an empty result. -/
def goClean (p : Str) : Str :=
  if p = [] then ['.']
  else
    let rooted : Bool := p.head? = some '/'
    let segs := (splitOnChar '/' p).filter (fun s => decide (s ≠ [] ∧ s ≠ ['.']))
    let out := cleanSegs rooted [] segs
    if rooted then '/' :: joinSlash out
    else if out = [] then ['.'] else joinSlash out

/-- Embeds Go `filepath.Join` for two elements: empty elements are dropped,
the rest are joined with `/` and the result is `Clean`ed. -/
def goJoin (a b : Str) : Str :=
  if a = [] ∧ b = [] then []
  else if a = [] then goClean b
  else if b = [] then goClean a
  else goClean (a ++ '/' :: b)

/-- Embeds Go `filepath.Dir` (Unix): everything up to and including the final
separator, `Clean`ed (`.` when there is no separator). -/
def goDir (p : Str) : Str :=
  goClean ((p.reverse.dropWhile (fun c => ¬c = '/')).reverse)

/-- Embeds Go `filepath.Base` (Unix): `.` for the empty path, otherwise strip
trailing slashes and take the part after the final separator (`/` when
nothing remains). -/
def goBase (p : Str) : Str :=
  if p = [] then ['.']
  else
    let q := (p.reverse.dropWhile (fun c => c = '/')).reverse
    if q = [] then ['/']
    else (q.reverse.takeWhile (fun c => ¬c = '/')).reverse

/-! ### Archive codec: `ExtractTarGz` / `extractFileFromTar` -/

/-- Tar entry type flags distinguished by `extractFileFromTar`
(`tar.TypeDir`, `tar.TypeReg`, anything else). -/
inductive TarTypeFlag where
  | dir
  | reg
  | other
  deriving DecidableEq, Repr

/-- A tar archive entry as far as the codec inspects it: name, type flag,
mode bits and byte content (content is empty for directories). -/
structure TarEntry where
  Name : Str
  Typeflag : TarTypeFlag
  Mode : Nat
  Content : Bytes
  deriving DecidableEq, Repr

/-- The filesystem state affected by extraction: directories created by
`MkdirAll` and regular files with their contents (permission bits live
outside the modelled state). -/
structure FS where
  dirs : List Str
  files : List (Str × Bytes)
  deriving DecidableEq, Repr

/-- Create-or-truncate a file, as `os.OpenFile` with `O_CREATE|O_TRUNC`. -/
def writeFileFS : List (Str × Bytes) → Str → Bytes → List (Str × Bytes)
  | [], p, c => [(p, c)]
  | (q, d) :: rest, p, c =>
    if q = p then (p, c) :: rest else (q, d) :: writeFileFS rest p c

/-- Look up a file's content by path. -/
def lookupFS : List (Str × Bytes) → Str → Option Bytes
  | [], _ => none
  | (q, d) :: rest, p => if q = p then some d else lookupFS rest p

/-- Extraction error: the directory-traversal rejection of
`extractFileFromTar` (OS-level I/O failures are environmental and outside
the model). -/
inductive ExtractErr where
  | illegalPath
  deriving DecidableEq, Repr

/-- The per-entry security check of `extractFileFromTar`
(`internal/utils/files.go` lines 104–112): the cleaned join of output
directory and entry name must equal the cleaned output directory or extend
it past a path separator. -/
def extractPathOk (outputDir name : Str) : Bool :=
  let targetPath := goJoin outputDir name
  let cleanOutputDir := goClean outputDir
  let cleanTargetPath := goClean targetPath
  (cleanOutputDir ++ ['/']).isPrefixOf cleanTargetPath || cleanTargetPath == cleanOutputDir

/-- Embeds `extractFileFromTar`: reject entries failing the traversal check
with `illegalPath`; create the directory for a `dir` entry; create parent
directories and write content for a `reg` entry; silently skip any other
entry type. -/
def extractFileFromTar (fs : FS) (e : TarEntry) (outputDir : Str) :
    Except ExtractErr FS :=
  let targetPath := goJoin outputDir e.Name
  if extractPathOk outputDir e.Name then
    match e.Typeflag with
    | .dir => .ok { fs with dirs := targetPath :: fs.dirs }
    | .reg =>
      .ok { dirs := goDir targetPath :: fs.dirs,
            files := writeFileFS fs.files targetPath e.Content }
    | .other => .ok fs
  else .error .illegalPath

/-- Embeds the entry loop of `ExtractTarGz` (`src/unnamed/part_004` lines
44–74) over the already-decoded entry sequence: process entries in order,
stopping at the first error; the filesystem changes of earlier entries
persist (no rollback). -/
def ExtractTarGz (entries : List TarEntry) (outputDir : Str) (fs : FS) :
    FS × Option ExtractErr :=
  match entries with
  | [] => (fs, none)
  | e :: rest =>
    match extractFileFromTar fs e outputDir with
    | .error err => (fs, some err)
    | .ok fs' => ExtractTarGz rest outputDir fs'

theorem extractFileFromTar_of_not_ok {fs : FS} {e : TarEntry} {outputDir : Str}
    (h : extractPathOk outputDir e.Name = false) :
    extractFileFromTar fs e outputDir = .error .illegalPath := by
  simp [extractFileFromTar, h]

theorem ExtractTarGz_ok_all (entries : List TarEntry) (outputDir : Str) :
    ∀ fs : FS, (ExtractTarGz entries outputDir fs).2 = none →
      ∀ e ∈ entries, extractPathOk outputDir e.Name = true := by
  induction entries with
  | nil => intro fs _ e he; cases he
  | cons e rest ih =>
    intro fs h e' he'
    rcases hc : extractFileFromTar fs e outputDir with err | fs'
    · rw [ExtractTarGz, hc] at h
      cases h
    · rw [ExtractTarGz, hc] at h
      rcases List.mem_cons.mp he' with rfl | he'
      · rcases hch : extractPathOk outputDir e'.Name with _ | _
        · rw [extractFileFromTar_of_not_ok hch] at hc
          cases hc
        · rfl
      · exact ih fs' h e' he'

theorem ExtractTarGz_stops_at_bad (outputDir : Str) (bad : TarEntry)
    (post : List TarEntry) (hbad : extractPathOk outputDir bad.Name = false) :
    ∀ (pre : List TarEntry) (fs fs₁ : FS),
      ExtractTarGz pre outputDir fs = (fs₁, none) →
      ExtractTarGz (pre ++ bad :: post) outputDir fs = (fs₁, some .illegalPath) := by
  intro pre
  induction pre with
  | nil =>
    intro fs fs₁ h
    rw [ExtractTarGz] at h
    injection h with h1 h2
    subst h1
    rw [List.nil_append, ExtractTarGz, extractFileFromTar_of_not_ok hbad]
  | cons p pre' ih =>
    intro fs fs₁ h
    rcases hc : extractFileFromTar fs p outputDir with err | fs'
    · rw [ExtractTarGz, hc] at h
      injection h with h1 h2
      cases h2
    · rw [ExtractTarGz, hc] at h
      rw [List.cons_append, ExtractTarGz, hc]
      exact ih fs' fs₁ h

/-- C2: every entry of an archive is subjected to the traversal check — a
fully successful extraction implies every entry passed it; an entry failing
the check anywhere in the entry sequence (after any successfully processed
entries) aborts the whole extraction with `illegalPath` and leaves the
filesystem exactly as it was before that entry, so the failing entry creates
no file anywhere, in particular none outside the output directory;
concretely, an entry named `../../etc/passwd` makes extraction into
`packages/mypkg` fail with `illegalPath` without touching the filesystem. -/
theorem extract_traversal_rejection (entries : List TarEntry) (outputDir : Str)
    (fs : FS) :
    ((ExtractTarGz entries outputDir fs).2 = none →
      ∀ e ∈ entries, extractPathOk outputDir e.Name = true) ∧
    (∀ (pre : List TarEntry) (bad : TarEntry) (post : List TarEntry) (fs₁ : FS),
      entries = pre ++ bad :: post →
      ExtractTarGz pre outputDir fs = (fs₁, none) →
      extractPathOk outputDir bad.Name = false →
      ExtractTarGz entries outputDir fs = (fs₁, some .illegalPath)) ∧
    ExtractTarGz
      [{ Name := ("../../etc/passwd").data, Typeflag := .reg, Mode := 420,
         Content := [1, 2, 3] }]
      (("packages/mypkg").data) { dirs := [], files := [] } =
      ({ dirs := [], files := [] }, some .illegalPath) := by
  refine ⟨ExtractTarGz_ok_all entries outputDir fs, ?_, by decide⟩
  intro pre bad post fs₁ hsplit hpre hbad
  subst hsplit
  exact ExtractTarGz_stops_at_bad outputDir bad post hbad pre fs fs₁ hpre

/-- C2 witness: `extract_traversal_rejection` discharged at a concrete
two-entry archive whose second entry is the traversal attempt, showing the
check fires after a successfully extracted first entry. -/
theorem extract_traversal_rejection_witness :
    ExtractTarGz
      [{ Name := ("a.txt").data, Typeflag := .reg, Mode := 420, Content := [7] },
       { Name := ("../../etc/passwd").data, Typeflag := .reg, Mode := 420,
         Content := [1, 2, 3] }]
      (("out").data) { dirs := [], files := [] } =
      ({ dirs := [("out").data], files := [(("out/a.txt").data, [7])] },
        some .illegalPath) :=
  (extract_traversal_rejection _ (("out").data) { dirs := [], files := [] }).2.1
    [{ Name := ("a.txt").data, Typeflag := .reg, Mode := 420, Content := [7] }]
    { Name := ("../../etc/passwd").data, Typeflag := .reg, Mode := 420,
      Content := [1, 2, 3] }
    [] { dirs := [("out").data], files := [(("out/a.txt").data, [7])] }
    rfl (by decide) (by decide)

/-! ### Archive building: `getArchiveName` / `addFileToTar` / `CreateTarGz` -/

/-- Embeds Go `filepath.Abs` with the process working directory passed
explicitly: an absolute path is `Clean`ed, a relative one is joined onto the
working directory. -/
def goAbs (p cwd : Str) : Str :=
  if p.head? = some '/' then goClean p else goJoin cwd p

/-- Strips the common leading elements of two segment lists (the
first-differing-element scan of Go `filepath.Rel`). -/
def dropCommon : List Str → List Str → List Str × List Str
  | a :: as, b :: bs => if a = b then dropCommon as bs else (a :: as, b :: bs)
  | as, bs => (as, bs)

/-- Embeds Go `filepath.Rel` (Unix): `Clean` both paths, succeed with `.` on
equality, require equal rootedness, strip the common element run, fail when
the base remainder is exactly `..`, and otherwise climb with one `..` per
remaining base element before descending into the target remainder. -/
def goRel (basepath targpath : Str) : Option Str :=
  let base := goClean basepath
  let targ := goClean targpath
  if targ = base then some ['.']
  else
    let base2 := if base = ['.'] then [] else base
    let baseSlashed : Bool := base2.head? = some '/'
    let targSlashed : Bool := targ.head? = some '/'
    if ¬(baseSlashed = targSlashed) then none
    else
      let bsegs := if base2 = [] then [] else splitOnChar '/' base2
      let tsegs := if targ = [] then [] else splitOnChar '/' targ
      let rest := dropCommon bsegs tsegs
      let brest := joinSlash rest.1
      let trest := joinSlash rest.2
      if brest = ['.', '.'] then none
      else if brest ≠ [] then
        let seps := brest.count '/'
        some (joinSlash (List.replicate (1 + seps) ['.', '.']) ++
          (if trest = [] then [] else '/' :: trest))
      else some trest

/-- Embeds `getArchiveName` (`internal/utils/files.go` lines 51–101) with the
working directory passed explicitly: relative path from the working
directory, with the documented fallbacks (prefix stripping or base name when
`Rel` fails, base name for `..`-leading, empty or `.` results);
`filepath.ToSlash` is the identity on Unix. -/
def getArchiveName (filePath cwd : Str) : Str :=
  let absFilePath := goAbs filePath cwd
  let absCwd := goAbs cwd cwd
  let relPath :=
    match goRel absCwd absFilePath with
    | some r => r
    | none =>
      if (absCwd ++ ['/']).isPrefixOf absFilePath then
        absFilePath.drop (absCwd ++ ['/']).length
      else if absFilePath = absCwd then ['.']
      else goBase absFilePath
  let relPath2 := if (['.', '.']).isPrefixOf relPath then goBase absFilePath else relPath
  if relPath2 = [] ∨ relPath2 = ['.'] then goBase absFilePath else relPath2

/-- A source file handed to the archive builder: absolute path, mode bits and
content (what `os.Open`/`Stat` provide to `addFileToTar`). -/
structure SrcFile where
  path : Str
  mode : Nat
  content : Bytes
  deriving DecidableEq, Repr

/-- Embeds `addFileToTar`: a regular-file tar entry named by
`getArchiveName`, carrying the file's mode and bytes. -/
def addFileToTar (cwd : Str) (f : SrcFile) : TarEntry :=
  { Name := getArchiveName f.path cwd, Typeflag := .reg, Mode := f.mode,
    Content := f.content }

/-- Error of `CreateTarGz` when the collected file set is empty. -/
inductive BuildErr where
  | noFilesMatched
  deriving DecidableEq, Repr

/-- Embeds `CreateTarGz` (`src/unnamed/part_004` lines 12–41) downstream of
pattern collection: fail on an empty file set, otherwise emit one tar entry
per collected file in order. -/
def CreateTarGz (cwd : Str) (files : List SrcFile) : Except BuildErr (List TarEntry) :=
  if files = [] then .error .noFilesMatched
  else .ok (files.map (addFileToTar cwd))

/-- C3 counterexample: the collected file `/cwd/..d/f.txt` has
working-directory-relative path `..d/f.txt` (as `filepath.Rel` computes),
but `getArchiveName` falls back to the base name because that relative path
starts with the characters `..`; the round trip through build and extract
therefore recreates the file at `out/f.txt`, not at `out/..d/f.txt`, so the
claim's "same working-directory-relative path" fails. -/
theorem roundTrip_relpath_counterexample :
    goRel (("/cwd").data) (("/cwd/..d/f.txt").data) = some (("..d/f.txt").data) ∧
    CreateTarGz (("/cwd").data)
      [{ path := ("/cwd/..d/f.txt").data, mode := 420, content := [9] }] =
      .ok [{ Name := ("f.txt").data, Typeflag := .reg, Mode := 420, Content := [9] }] ∧
    ExtractTarGz
      [{ Name := ("f.txt").data, Typeflag := .reg, Mode := 420, Content := [9] }]
      (("out").data) { dirs := [], files := [] } =
      ({ dirs := [("out").data], files := [(("out/f.txt").data, [9])] }, none) ∧
    lookupFS [(("out/f.txt").data, [9])] (("out/..d/f.txt").data) = none := by
  refine ⟨by decide, by decide, by decide, by decide⟩

/-! ### Segment-level lemmas about the path algebra -/

/-- A clean path segment: nonempty, slash-free, not `.` and not `..`. -/
def validSeg (s : Str) : Prop :=
  s ≠ [] ∧ '/' ∉ s ∧ s ≠ ['.'] ∧ s ≠ ['.', '.']

/-- All segments of a list are clean. -/
def validSegs (l : List Str) : Prop := ∀ s ∈ l, validSeg s

instance (s : Str) : Decidable (validSeg s) := by unfold validSeg; infer_instance

instance (l : List Str) : Decidable (validSegs l) := by unfold validSegs; infer_instance

theorem splitOnChar_no_sep {sep : Char} {s : Str} (h : sep ∉ s) :
    splitOnChar sep s = [s] := by
  induction s with
  | nil => rfl
  | cons c t ih =>
    have hc : ¬c = sep := fun he => h (he ▸ List.mem_cons_self c t)
    have ht : sep ∉ t := fun he => h (List.mem_cons_of_mem c he)
    simp [splitOnChar, hc, ih ht]

theorem splitOnChar_append_sep {sep : Char} {s : Str} (w : Str) (h : sep ∉ s) :
    splitOnChar sep (s ++ sep :: w) = s :: splitOnChar sep w := by
  induction s with
  | nil => simp [splitOnChar]
  | cons c t ih =>
    have hc : ¬c = sep := fun he => h (he ▸ List.mem_cons_self c t)
    have ht : sep ∉ t := fun he => h (List.mem_cons_of_mem c he)
    simp only [List.cons_append, splitOnChar, if_neg hc]
    rw [List.append_eq, ih ht]

theorem joinSlash_cons (s : Str) {t : List Str} (ht : t ≠ []) :
    joinSlash (s :: t) = s ++ '/' :: joinSlash t := by
  cases t with
  | nil => exact absurd rfl ht
  | cons u rest => rfl

theorem splitOnChar_joinSlash {l : List Str} (hne : l ≠ [])
    (h : ∀ s ∈ l, '/' ∉ s) : splitOnChar '/' (joinSlash l) = l := by
  induction l with
  | nil => exact absurd rfl hne
  | cons s t ih =>
    cases ht : t with
    | nil => exact splitOnChar_no_sep (h s (List.mem_cons_self s t))
    | cons u rest =>
      rw [← ht, joinSlash_cons s (by simp [ht]),
        splitOnChar_append_sep _ (h s (List.mem_cons_self s t)),
        ih (by simp [ht]) (fun x hx => h x (List.mem_cons_of_mem s hx))]

theorem joinSlash_ne_nil {l : List Str} (hne : l ≠ []) (h : ∀ s ∈ l, s ≠ []) :
    joinSlash l ≠ [] := by
  cases l with
  | nil => exact absurd rfl hne
  | cons s t =>
    cases t with
    | nil => exact h s (List.mem_cons_self s [])
    | cons u rest =>
      rw [joinSlash_cons s (by simp)]
      simp [h s (List.mem_cons_self s _)]

theorem head?_joinSlash (s : Str) (t : List Str) (hs : s ≠ []) :
    (joinSlash (s :: t)).head? = s.head? := by
  cases t with
  | nil => rfl
  | cons u rest =>
    rw [joinSlash_cons s (by simp)]
    cases s with
    | nil => exact absurd rfl hs
    | cons c cs => rfl

theorem joinSlash_append {a b : List Str} (ha : a ≠ []) (hb : b ≠ []) :
    joinSlash (a ++ b) = joinSlash a ++ '/' :: joinSlash b := by
  induction a with
  | nil => exact absurd rfl ha
  | cons s t ih =>
    cases ht : t with
    | nil =>
      subst ht
      rw [List.cons_append, List.nil_append, joinSlash_cons s hb]
      rfl
    | cons u rest =>
      rw [← ht, List.cons_append, joinSlash_cons s (by simp [ht]),
        joinSlash_cons s (fun he => by rw [ht] at he; cases he),
        ih (by simp [ht]), List.append_assoc]
      rfl

theorem joinSlash_inj {a b : List Str} (ha : a ≠ []) (hb : b ≠ [])
    (hav : ∀ s ∈ a, '/' ∉ s) (hbv : ∀ s ∈ b, '/' ∉ s)
    (h : joinSlash a = joinSlash b) : a = b := by
  have := splitOnChar_joinSlash ha hav
  rw [h, splitOnChar_joinSlash hb hbv] at this
  exact this.symm

theorem cleanSegs_no_dotdot (rooted : Bool) {l : List Str} (acc : List Str)
    (h : ∀ s ∈ l, s ≠ ['.', '.']) :
    cleanSegs rooted acc l = acc.reverse ++ l := by
  induction l generalizing acc with
  | nil => simp [cleanSegs]
  | cons s t ih =>
    simp only [cleanSegs, if_neg (h s (List.mem_cons_self s t))]
    rw [ih (s :: acc) (fun x hx => h x (List.mem_cons_of_mem s hx))]
    simp

theorem goClean_joinSlash {l : List Str} (hne : l ≠ []) (h : validSegs l) :
    goClean (joinSlash l) = joinSlash l := by
  have h0 : ∀ s ∈ l, s ≠ [] := fun s hs => (h s hs).1
  have hslash : ∀ s ∈ l, '/' ∉ s := fun s hs => (h s hs).2.1
  have hp : joinSlash l ≠ [] := joinSlash_ne_nil hne h0
  obtain ⟨s, t, rfl⟩ : ∃ s t, l = s :: t := by
    cases l with
    | nil => exact absurd rfl hne
    | cons s t => exact ⟨s, t, rfl⟩
  have hhead : (joinSlash (s :: t)).head? = s.head? :=
    head?_joinSlash s t (h0 s (List.mem_cons_self s t))
  have hroot : ¬(joinSlash (s :: t)).head? = some '/' := by
    rw [hhead]
    cases hs : s with
    | nil => exact absurd hs (h0 _ (List.mem_cons_self _ t))
    | cons c cs =>
      have : c ≠ '/' := fun he => (hslash _ (List.mem_cons_self _ t))
        (by rw [hs, he]; exact List.mem_cons_self _ _)
      simp [this]
  have hrootb : decide ((joinSlash (s :: t)).head? = some '/') = false :=
    decide_eq_false hroot
  have hsplit : splitOnChar '/' (joinSlash (s :: t)) = s :: t :=
    splitOnChar_joinSlash hne hslash
  have hfilter :
      (s :: t).filter (fun x => decide (x ≠ [] ∧ x ≠ ['.'])) = s :: t := by
    apply List.filter_eq_self.mpr
    intro x hx
    exact decide_eq_true ⟨(h x hx).1, (h x hx).2.2.1⟩
  have hclean : cleanSegs false [] (s :: t) = s :: t :=
    cleanSegs_no_dotdot false [] (fun x hx => (h x hx).2.2.2)
  simp only [goClean, if_neg hp, hsplit, hfilter, hrootb, hclean]
  simp [hne]

theorem goClean_root_joinSlash {l : List Str} (h : validSegs l) :
    goClean ('/' :: joinSlash l) = '/' :: joinSlash l := by
  cases hl : l with
  | nil => decide
  | cons s t =>
    rw [← hl]
    have hne : l ≠ [] := by simp [hl]
    have h0 : ∀ x ∈ l, x ≠ [] := fun x hx => (h x hx).1
    have hslash : ∀ x ∈ l, '/' ∉ x := fun x hx => (h x hx).2.1
    have hp : ('/' :: joinSlash l) ≠ [] := by simp
    have hsplit : splitOnChar '/' ('/' :: joinSlash l) = [] :: l := by
      rw [show splitOnChar '/' ('/' :: joinSlash l) =
          [] :: splitOnChar '/' (joinSlash l) by simp [splitOnChar],
        splitOnChar_joinSlash hne hslash]
    have hrootb : decide (('/' :: joinSlash l).head? = some '/') = true := by
      simp
    have hfilter :
        ([] :: l).filter (fun x => decide (x ≠ [] ∧ x ≠ ['.'])) = l := by
      rw [List.filter_cons]
      rw [if_neg (by simp)]
      apply List.filter_eq_self.mpr
      intro x hx
      exact decide_eq_true ⟨(h x hx).1, (h x hx).2.2.1⟩
    have hclean : cleanSegs true [] l = l :=
      cleanSegs_no_dotdot true [] (fun x hx => (h x hx).2.2.2)
    simp only [goClean, if_neg hp, hsplit, hfilter, hrootb, hclean]
    simp

theorem dropCommon_append (l r : List Str) : dropCommon l (l ++ r) = ([], r) := by
  induction l with
  | nil => cases r <;> rfl
  | cons a as ih => simp [dropCommon, ih]

theorem isPrefixOf_append_self (l m : List Char) : l.isPrefixOf (l ++ m) = true := by
  induction l with
  | nil => simp [List.isPrefixOf]
  | cons c t ih => simp [List.isPrefixOf, ih]

theorem goRel_under {cwdSegs rsegs : List Str} (hc : validSegs cwdSegs)
    (hr : validSegs rsegs) (hrne : rsegs ≠ []) :
    goRel ('/' :: joinSlash cwdSegs) ('/' :: joinSlash (cwdSegs ++ rsegs)) =
      some (joinSlash rsegs) := by
  have hr0 : ∀ s ∈ rsegs, s ≠ [] := fun s hs => (hr s hs).1
  have hrs : ∀ s ∈ rsegs, '/' ∉ s := fun s hs => (hr s hs).2.1
  have hrnn : joinSlash rsegs ≠ [] := joinSlash_ne_nil hrne hr0
  have hcr : validSegs (cwdSegs ++ rsegs) := by
    intro s hs
    rcases List.mem_append.mp hs with h' | h'
    · exact hc s h'
    · exact hr s h'
  have hbase : goClean ('/' :: joinSlash cwdSegs) = '/' :: joinSlash cwdSegs :=
    goClean_root_joinSlash hc
  have htarg : goClean ('/' :: joinSlash (cwdSegs ++ rsegs)) =
      '/' :: joinSlash (cwdSegs ++ rsegs) := goClean_root_joinSlash hcr
  obtain ⟨r0, rs, rfl⟩ : ∃ r0 rs, rsegs = r0 :: rs := by
    cases rsegs with
    | nil => exact absurd rfl hrne
    | cons a b => exact ⟨a, b, rfl⟩
  rcases hcw : cwdSegs with _ | ⟨c0, cs⟩
  · subst hcw
    simp only [List.nil_append] at htarg ⊢
    have hne2 : ¬('/' :: joinSlash (r0 :: rs)) = '/' :: joinSlash ([] : List Str) := by
      intro he
      injection he with _ h2
      exact hrnn h2
    have htsegs : splitOnChar '/' ('/' :: joinSlash (r0 :: rs)) = [] :: r0 :: rs := by
      rw [show splitOnChar '/' ('/' :: joinSlash (r0 :: rs)) =
          [] :: splitOnChar '/' (joinSlash (r0 :: rs)) from by simp [splitOnChar],
        splitOnChar_joinSlash hrne hrs]
    have hr0ne : ¬([] : Str) = r0 :=
      fun he => hr0 r0 (List.mem_cons_self _ _) he.symm
    have hsp2 : splitOnChar '/' (joinSlash (r0 :: rs)) = r0 :: rs :=
      splitOnChar_joinSlash hrne hrs
    simp only [goRel, hbase, htarg, if_neg hne2]
    simp [htsegs, hsp2, dropCommon, splitOnChar, joinSlash, hr0ne]
  · subst hcw
    have hcne : (c0 :: cs) ≠ [] := by simp
    have hc0 : ∀ s ∈ c0 :: cs, s ≠ [] := fun s hs => (hc s hs).1
    have hcs : ∀ s ∈ c0 :: cs, '/' ∉ s := fun s hs => (hc s hs).2.1
    have happ : joinSlash ((c0 :: cs) ++ r0 :: rs) =
        joinSlash (c0 :: cs) ++ '/' :: joinSlash (r0 :: rs) :=
      joinSlash_append hcne (by simp)
    have hne2 : ¬('/' :: joinSlash ((c0 :: cs) ++ r0 :: rs)) =
        '/' :: joinSlash (c0 :: cs) := by
      rw [happ]
      intro he
      injection he with _ h2
      have := congrArg List.length h2
      simp at this
    have hbd : ¬('/' :: joinSlash (c0 :: cs)) = ['.'] := by
      intro he
      injection he with h1 _
      exact absurd h1 (by decide)
    have hbsegs : splitOnChar '/' ('/' :: joinSlash (c0 :: cs)) = [] :: c0 :: cs := by
      rw [show splitOnChar '/' ('/' :: joinSlash (c0 :: cs)) =
          [] :: splitOnChar '/' (joinSlash (c0 :: cs)) from by simp [splitOnChar],
        splitOnChar_joinSlash hcne hcs]
    have htsegs : splitOnChar '/' ('/' :: joinSlash ((c0 :: cs) ++ r0 :: rs)) =
        [] :: ((c0 :: cs) ++ r0 :: rs) := by
      rw [show splitOnChar '/' ('/' :: joinSlash ((c0 :: cs) ++ r0 :: rs)) =
          [] :: splitOnChar '/' (joinSlash ((c0 :: cs) ++ r0 :: rs)) from by
            simp [splitOnChar],
        splitOnChar_joinSlash (by simp) (fun s hs => (hcr s hs).2.1)]
    have hdc : dropCommon ([] :: c0 :: cs) ([] :: ((c0 :: cs) ++ r0 :: rs)) =
        ([], r0 :: rs) := by
      rw [show ([] :: ((c0 :: cs) ++ r0 :: rs)) =
          (([] :: c0 :: cs) ++ (r0 :: rs)) from by simp]
      exact dropCommon_append _ _
    simp only [goRel, hbase, htarg, if_neg hne2]
    simp only [List.cons_append] at htsegs hdc
    simp [hbd, hbsegs, htsegs, hdc, joinSlash]

theorem getArchiveName_under {cwdSegs rsegs : List Str} (hc : validSegs cwdSegs)
    (hr : validSegs rsegs) (hrne : rsegs ≠ [])
    (hdd : (['.', '.']).isPrefixOf (joinSlash rsegs) = false) :
    getArchiveName ('/' :: joinSlash (cwdSegs ++ rsegs)) ('/' :: joinSlash cwdSegs) =
      joinSlash rsegs := by
  have hr0 : ∀ s ∈ rsegs, s ≠ [] := fun s hs => (hr s hs).1
  have hrs : ∀ s ∈ rsegs, '/' ∉ s := fun s hs => (hr s hs).2.1
  have hrnn : joinSlash rsegs ≠ [] := joinSlash_ne_nil hrne hr0
  have hcr : validSegs (cwdSegs ++ rsegs) := by
    intro s hs
    rcases List.mem_append.mp hs with h' | h'
    · exact hc s h'
    · exact hr s h'
  have hdot : joinSlash rsegs ≠ ['.'] := by
    intro he
    have hsp := splitOnChar_joinSlash hrne hrs
    have hx : splitOnChar '/' (['.'] : Str) = [['.']] := by decide
    rw [he, hx] at hsp
    exact (hr ['.'] (by rw [← hsp]; exact List.mem_cons_self _ _)).2.2.1 rfl
  have hvneg : ¬(joinSlash rsegs = [] ∨ joinSlash rsegs = ['.']) := by
    rintro (h1 | h1)
    exacts [hrnn h1, hdot h1]
  simp [getArchiveName, goAbs, goClean_root_joinSlash hcr, goClean_root_joinSlash hc,
    goRel_under hc hr hrne, hdd, hvneg]

theorem goJoin_segs {a b : List Str} (ha : validSegs a) (hb : validSegs b)
    (hane : a ≠ []) (hbne : b ≠ []) :
    goJoin (joinSlash a) (joinSlash b) = joinSlash (a ++ b) := by
  have hann : joinSlash a ≠ [] := joinSlash_ne_nil hane (fun s hs => (ha s hs).1)
  have hbnn : joinSlash b ≠ [] := joinSlash_ne_nil hbne (fun s hs => (hb s hs).1)
  have hab : validSegs (a ++ b) := by
    intro s hs
    rcases List.mem_append.mp hs with h' | h'
    · exact ha s h'
    · exact hb s h'
  rw [goJoin, if_neg (fun h => hann h.1), if_neg hann, if_neg hbnn,
    show joinSlash a ++ '/' :: joinSlash b = joinSlash (a ++ b) from
      (joinSlash_append hane hbne).symm]
  exact goClean_joinSlash (by simp [hane]) hab

theorem extractPathOk_segs {out n : List Str} (ho : validSegs out) (hn : validSegs n)
    (hone : out ≠ []) (hnne : n ≠ []) :
    extractPathOk (joinSlash out) (joinSlash n) = true := by
  have hon : validSegs (out ++ n) := by
    intro s hs
    rcases List.mem_append.mp hs with h' | h'
    · exact ho s h'
    · exact hn s h'
  have hpfx : (joinSlash out ++ ['/']).isPrefixOf (joinSlash (out ++ n)) = true := by
    have h1 := isPrefixOf_append_self (joinSlash out ++ ['/']) (joinSlash n)
    rw [List.append_assoc, List.singleton_append] at h1
    rw [joinSlash_append hone hnne]
    exact h1
  simp only [extractPathOk, goJoin_segs ho hn hone hnne,
    goClean_joinSlash hone ho, goClean_joinSlash (by simp [hone]) hon, hpfx,
    Bool.true_or]

theorem lookup_writeFileFS_self (fs : List (Str × Bytes)) (p : Str) (c : Bytes) :
    lookupFS (writeFileFS fs p c) p = some c := by
  induction fs with
  | nil => simp [writeFileFS, lookupFS]
  | cons qd rest ih =>
    obtain ⟨q, d⟩ := qd
    by_cases h : q = p
    · simp [writeFileFS, lookupFS, h]
    · simp [writeFileFS, lookupFS, h, ih]

theorem lookup_writeFileFS_ne (fs : List (Str × Bytes)) (p : Str) (c : Bytes)
    (k : Str) (h : k ≠ p) :
    lookupFS (writeFileFS fs p c) k = lookupFS fs k := by
  induction fs with
  | nil =>
    have h' : ¬p = k := fun he => h he.symm
    simp [writeFileFS, lookupFS, h']
  | cons qd rest ih =>
    obtain ⟨q, d⟩ := qd
    by_cases hq : q = p
    · subst hq
      have h' : ¬q = k := fun he => h he.symm
      simp [writeFileFS, lookupFS, h']
    · by_cases hk : q = k
      · subst hk
        simp [writeFileFS, lookupFS, hq]
      · simp [writeFileFS, lookupFS, hq, hk, ih]

theorem extractFileFromTar_reg_eq (fs : FS) {e : TarEntry} {outputDir : Str}
    (hok : extractPathOk outputDir e.Name = true) (hreg : e.Typeflag = .reg) :
    extractFileFromTar fs e outputDir =
      .ok { dirs := goDir (goJoin outputDir e.Name) :: fs.dirs,
            files := writeFileFS fs.files (goJoin outputDir e.Name) e.Content } := by
  simp [extractFileFromTar, hok, hreg]

theorem ExtractTarGz_reg_frame (outputDir : Str) :
    ∀ (entries : List TarEntry) (fs : FS),
      (∀ e ∈ entries, e.Typeflag = .reg ∧ extractPathOk outputDir e.Name = true) →
      (ExtractTarGz entries outputDir fs).2 = none ∧
      ∀ k : Str, (∀ e ∈ entries, goJoin outputDir e.Name ≠ k) →
        lookupFS (ExtractTarGz entries outputDir fs).1.files k = lookupFS fs.files k := by
  intro entries
  induction entries with
  | nil => intro fs h; exact ⟨rfl, fun k _ => rfl⟩
  | cons e rest ih =>
    intro fs h
    have he := h e (List.mem_cons_self e rest)
    have hstep := extractFileFromTar_reg_eq fs he.2 he.1
    have hrest : ∀ x ∈ rest, x.Typeflag = .reg ∧ extractPathOk outputDir x.Name = true :=
      fun x hx => h x (List.mem_cons_of_mem e hx)
    constructor
    · rw [ExtractTarGz, hstep]
      exact (ih _ hrest).1
    · intro k hk
      rw [ExtractTarGz, hstep]
      rw [(ih _ hrest).2 k (fun x hx => hk x (List.mem_cons_of_mem e hx))]
      exact lookup_writeFileFS_ne _ _ _ _
        (fun hkk => hk e (List.mem_cons_self e rest) hkk.symm)

theorem ExtractTarGz_reg_lookup (outputDir : Str) :
    ∀ (entries : List TarEntry) (fs : FS),
      (∀ e ∈ entries, e.Typeflag = .reg ∧ extractPathOk outputDir e.Name = true) →
      (entries.map (fun e => goJoin outputDir e.Name)).Nodup →
      ∀ e ∈ entries,
        lookupFS (ExtractTarGz entries outputDir fs).1.files
          (goJoin outputDir e.Name) = some e.Content := by
  intro entries
  induction entries with
  | nil => intro fs _ _ e he; cases he
  | cons e rest ih =>
    intro fs h hnd e' he'
    have he := h e (List.mem_cons_self e rest)
    have hstep := extractFileFromTar_reg_eq fs he.2 he.1
    have hrest : ∀ x ∈ rest, x.Typeflag = .reg ∧ extractPathOk outputDir x.Name = true :=
      fun x hx => h x (List.mem_cons_of_mem e hx)
    rw [List.map_cons, List.nodup_cons] at hnd
    rcases List.mem_cons.mp he' with rfl | he'
    · rw [ExtractTarGz, hstep]
      rw [(ExtractTarGz_reg_frame outputDir rest _ hrest).2 (goJoin outputDir e'.Name)
        (fun x hx hxx => hnd.1 (hxx ▸ List.mem_map_of_mem _ hx))]
      exact lookup_writeFileFS_self _ _ _
    · rw [ExtractTarGz, hstep]
      exact ih _ hrest hnd.2 e' he'

/-- C3 amended: the build/extract round trip reproduces content at the
build-time working-directory-relative path for every collected file that sits
under the working directory at a clean relative path not beginning with the
characters `..` (files outside the working directory tree, and files whose
relative path starts with `..` — e.g. under a directory named `..d` — fall
back to their base name, as the counterexample shows).  For every working
directory, non-empty output directory, and non-empty duplicate-free
collection of such files: building archives each file under exactly its
relative path, extraction succeeds, and each file reappears under the output
directory at that relative path with byte-identical content. -/
theorem roundTrip_reproduces (cwdSegs outSegs : List Str)
    (items : List (List Str × Nat × Bytes))
    (hcwd : validSegs cwdSegs) (hout : validSegs outSegs) (houtne : outSegs ≠ [])
    (hitems : ∀ it ∈ items, validSegs it.1 ∧ it.1 ≠ [] ∧
      (['.', '.']).isPrefixOf (joinSlash it.1) = false)
    (hnodup : (items.map (fun it => it.1)).Nodup)
    (hne : items ≠ []) :
    CreateTarGz ('/' :: joinSlash cwdSegs)
      (items.map (fun it =>
        { path := '/' :: joinSlash (cwdSegs ++ it.1), mode := it.2.1,
          content := it.2.2 })) =
      .ok (items.map (fun it =>
        { Name := joinSlash it.1, Typeflag := .reg, Mode := it.2.1,
          Content := it.2.2 })) ∧
    (ExtractTarGz (items.map (fun it =>
        { Name := joinSlash it.1, Typeflag := .reg, Mode := it.2.1,
          Content := it.2.2 })) (joinSlash outSegs)
        { dirs := [], files := [] }).2 = none ∧
    ∀ it ∈ items,
      lookupFS (ExtractTarGz (items.map (fun it =>
          { Name := joinSlash it.1, Typeflag := .reg, Mode := it.2.1,
            Content := it.2.2 })) (joinSlash outSegs)
          { dirs := [], files := [] }).1.files
        (joinSlash (outSegs ++ it.1)) = some it.2.2 := by
  have hall : ∀ e ∈ items.map (fun it =>
      ({ Name := joinSlash it.1, Typeflag := .reg, Mode := it.2.1,
         Content := it.2.2 } : TarEntry)),
      e.Typeflag = .reg ∧ extractPathOk (joinSlash outSegs) e.Name = true := by
    intro e he
    obtain ⟨it, hit, rfl⟩ := List.mem_map.mp he
    obtain ⟨hv, hitne, -⟩ := hitems it hit
    exact ⟨rfl, extractPathOk_segs hout hv houtne hitne⟩
  have htargets : (items.map (fun it =>
      ({ Name := joinSlash it.1, Typeflag := .reg, Mode := it.2.1,
         Content := it.2.2 } : TarEntry))).map
        (fun e => goJoin (joinSlash outSegs) e.Name) =
      items.map (fun it => joinSlash (outSegs ++ it.1)) := by
    rw [List.map_map]
    apply List.map_congr_left
    intro it hit
    obtain ⟨hv, hitne, -⟩ := hitems it hit
    exact goJoin_segs hout hv houtne hitne
  have hndt : ((items.map (fun it =>
      ({ Name := joinSlash it.1, Typeflag := .reg, Mode := it.2.1,
         Content := it.2.2 } : TarEntry))).map
        (fun e => goJoin (joinSlash outSegs) e.Name)).Nodup := by
    rw [htargets]
    have : items.map (fun it => joinSlash (outSegs ++ it.1)) =
        (items.map (fun it => it.1)).map (fun r => joinSlash (outSegs ++ r)) := by
      rw [List.map_map]
      rfl
    rw [this]
    apply List.Nodup.map_on ?_ hnodup
    intro x hx y hy hxy
    obtain ⟨itx, hitx, rfl⟩ := List.mem_map.mp hx
    obtain ⟨ity, hity, rfl⟩ := List.mem_map.mp hy
    obtain ⟨hvx, hxne, -⟩ := hitems itx hitx
    obtain ⟨hvy, hyne, -⟩ := hitems ity hity
    have hox : validSegs (outSegs ++ itx.1) := by
      intro s hs
      rcases List.mem_append.mp hs with h' | h'
      · exact hout s h'
      · exact hvx s h'
    have hoy : validSegs (outSegs ++ ity.1) := by
      intro s hs
      rcases List.mem_append.mp hs with h' | h'
      · exact hout s h'
      · exact hvy s h'
    have := joinSlash_inj (by simp [houtne]) (by simp [houtne])
      (fun s hs => (hox s hs).2.1) (fun s hs => (hoy s hs).2.1) hxy
    exact List.append_cancel_left this
  refine ⟨?_, ?_, ?_⟩
  · rw [CreateTarGz, if_neg (by simp [hne]), List.map_map]
    congr 1
    apply List.map_congr_left
    intro it hit
    obtain ⟨hv, hitne, hdd⟩ := hitems it hit
    simp [addFileToTar, getArchiveName_under hcwd hv hitne hdd]
  · exact (ExtractTarGz_reg_frame (joinSlash outSegs) _
      { dirs := [], files := [] } hall).1
  · intro it hit
    obtain ⟨hv, hitne, -⟩ := hitems it hit
    have := ExtractTarGz_reg_lookup (joinSlash outSegs) _
      { dirs := [], files := [] } hall hndt
      ({ Name := joinSlash it.1, Typeflag := .reg, Mode := it.2.1,
         Content := it.2.2 } : TarEntry) (List.mem_map_of_mem _ hit)
    rw [goJoin_segs hout hv houtne hitne] at this
    exact this

/-- C3 witness: `roundTrip_reproduces` discharged at a concrete two-file
collection under working directory `/cwd`, extracting into `out`. -/
theorem roundTrip_reproduces_witness :
    CreateTarGz (("/cwd").data)
      [{ path := ("/cwd/a/b.txt").data, mode := 420, content := [1, 2] },
       { path := ("/cwd/c.txt").data, mode := 416, content := [3] }] =
      .ok [{ Name := ("a/b.txt").data, Typeflag := .reg, Mode := 420, Content := [1, 2] },
           { Name := ("c.txt").data, Typeflag := .reg, Mode := 416, Content := [3] }] ∧
    (ExtractTarGz
      [{ Name := ("a/b.txt").data, Typeflag := .reg, Mode := 420, Content := [1, 2] },
       { Name := ("c.txt").data, Typeflag := .reg, Mode := 416, Content := [3] }]
      (("out").data) { dirs := [], files := [] }).2 = none ∧
    lookupFS (ExtractTarGz
      [{ Name := ("a/b.txt").data, Typeflag := .reg, Mode := 420, Content := [1, 2] },
       { Name := ("c.txt").data, Typeflag := .reg, Mode := 416, Content := [3] }]
      (("out").data) { dirs := [], files := [] }).1.files
      (("out/a/b.txt").data) = some [1, 2] := by
  have h := roundTrip_reproduces [("cwd").data] [("out").data]
    [([("a").data, ("b.txt").data], 420, [1, 2]), ([("c.txt").data], 416, [3])]
    (by decide) (by decide) (by decide) (by decide) (by decide) (by decide)
  exact ⟨h.1, h.2.1, h.2.2 ([("a").data, ("b.txt").data], 420, [1, 2])
    (List.mem_cons_self _ _)⟩

/-! ### Glob matching: Go `path/filepath.Match` (Unix rules)

Characters are matched rune-by-rune; the claims only exercise ASCII, where
Go's byte-level loop and this rune-level model coincide.  The recursions are
expressed with explicit fuel counters so that every function is structurally
recursive (and hence evaluates inside the kernel); the fuel supplied at each
call site strictly exceeds the number of loop iterations, which consume at
least one pattern character each. -/

/-- Consume the leading `*`s of a pattern (the first loop of `scanChunk`). -/
def dropStars : Str → Str
  | [] => []
  | c :: rest => if c = '*' then dropStars rest else c :: rest

/-- The `Scan` loop of `scanChunk`: split off the chunk before the next
top-level `*` (a `*` inside a `[...]` range does not end the chunk, and a
`\\`-escaped character is carried over verbatim). -/
def scanChunkBody (inrange : Bool) : Str → Str × Str
  | [] => ([], [])
  | c :: rest =>
    if c = '\\' then
      match rest with
      | [] => (['\\'], [])
      | d :: rest2 =>
        let pr := scanChunkBody inrange rest2
        ('\\' :: d :: pr.1, pr.2)
    else if c = '[' then
      let pr := scanChunkBody true rest
      (c :: pr.1, pr.2)
    else if c = ']' then
      let pr := scanChunkBody false rest
      (c :: pr.1, pr.2)
    else if c = '*' then
      if inrange then
        let pr := scanChunkBody inrange rest
        (c :: pr.1, pr.2)
      else ([], c :: rest)
    else
      let pr := scanChunkBody inrange rest
      (c :: pr.1, pr.2)

/-- Embeds `scanChunk`: strip leading `*`s (remembering whether any were
present) and return the chunk up to the next top-level `*`. -/
def scanChunk (pattern : Str) : Bool × Str × Str :=
  let star : Bool := pattern.head? = some '*'
  let pr := scanChunkBody false (dropStars pattern)
  (star, pr.1, pr.2)

/-- Embeds `getEsc`: read one (possibly `\\`-escaped) character of a
character-class range, rejecting an empty or misplaced `-`/`]` and a class
left unterminated. -/
def getEsc : Str → Except Unit (Char × Str)
  | [] => .error ()
  | '-' :: _ => .error ()
  | ']' :: _ => .error ()
  | '\\' :: rest =>
    match rest with
    | [] => .error ()
    | c :: rest2 => if rest2 = [] then .error () else .ok (c, rest2)
  | c :: rest => if rest = [] then .error () else .ok (c, rest)

/-- The range-parsing loop of `matchChunk`'s `[` case: parse `lo(-hi)` ranges
until the closing `]` (which must come after at least one range), recording
whether the candidate rune falls in any range. -/
def classLoopF : Nat → Char → Bool → Nat → Str → Except Unit (Bool × Str)
  | 0, _, _, _, _ => .error ()
  | fuel + 1, r, matched, nrange, chunk =>
    if chunk.head? = some ']' ∧ nrange > 0 then .ok (matched, chunk.tail)
    else
      match getEsc chunk with
      | .error _ => .error ()
      | .ok (lo, chunk1) =>
        match (if chunk1.head? = some '-' then getEsc chunk1.tail
               else .ok (lo, chunk1)) with
        | .error _ => .error ()
        | .ok (hi, chunk2) =>
          classLoopF fuel r (matched || (decide (lo ≤ r) && decide (r ≤ hi)))
            (nrange + 1) chunk2

/-- Embeds `matchChunk` with its `failed` flag threaded explicitly: after a
mismatch the chunk is still parsed to completion so that a malformed pattern
is reported as an error rather than a mere non-match; `?` and a literal
character consume one rune (never matching `/` for `?`), `[...]` consumes a
class.  Returns `none` for a failed match and `some rest` on success. -/
def matchChunkF : Nat → Bool → Str → Str → Except Unit (Option Str)
  | 0, _, _, _ => .error ()
  | fuel + 1, failed0, chunk, s =>
    match chunk with
    | [] => .ok (if failed0 then none else some s)
    | c :: chunkRest =>
      let failed := failed0 || decide (s = [])
      if c = '[' then
        let r : Char := if failed then '\x00' else s.headD '\x00'
        let s1 := if failed then s else s.tail
        let negated : Bool := chunkRest.head? = some '^'
        let chunkA := if chunkRest.head? = some '^' then chunkRest.tail else chunkRest
        match classLoopF (chunkA.length + 1) r false 0 chunkA with
        | .error _ => .error ()
        | .ok (matched, chunk2) =>
          matchChunkF fuel (failed || decide (matched = negated)) chunk2 s1
      else if c = '?' then
        let failed2 := failed || decide (s.headD '\x00' = '/')
        let s1 := if failed then s else s.tail
        matchChunkF fuel failed2 chunkRest s1
      else if c = '\\' then
        match chunkRest with
        | [] => .error ()
        | d :: chunkRest2 =>
          let failed2 := failed || decide (¬s.headD '\x00' = d)
          let s1 := if failed then s else s.tail
          matchChunkF fuel failed2 chunkRest2 s1
      else
        let failed2 := failed || decide (¬s.headD '\x00' = c)
        let s1 := if failed then s else s.tail
        matchChunkF fuel failed2 chunkRest s1

/-- `matchChunk` at its natural fuel. -/
def matchChunk (chunk s : Str) : Except Unit (Option Str) :=
  matchChunkF (chunk.length + 1) false chunk s

/-- The trailing validity loop of `Match` (Go 1.16+): before returning a
mismatch without error, scan the unconsumed pattern remainder chunk by chunk
and run each chunk through `matchChunk` against the empty string, so that a
syntactically malformed remainder still reports the bad-pattern error. -/
def chunksValidF : Nat → Str → Except Unit Bool
  | 0, _ => .error ()
  | fuel + 1, pattern =>
    match pattern with
    | [] => .ok false
    | _ :: _ =>
      match scanChunk pattern with
      | (_, chunk, rest) =>
        match matchChunk chunk [] with
        | .error _ => .error ()
        | .ok _ => chunksValidF fuel rest

/-- The `star` inner loop of `Match`: try the chunk at every later position
of the name without skipping a separator; `go` is the continuation matching
the remaining pattern and `failRes` the result of the trailing validity
check on the pattern remainder, produced when the loop exhausts the name. -/
def starLoop (go : Str → Str → Except Unit Bool) (failRes : Except Unit Bool)
    (chunk rest : Str) : Str → Except Unit Bool
  | [] => failRes
  | c :: nameRest =>
    if c = '/' then failRes
    else
      match matchChunk chunk nameRest with
      | .ok (some t) =>
        if rest = [] ∧ t ≠ [] then starLoop go failRes chunk rest nameRest
        else go rest t
      | .ok none => starLoop go failRes chunk rest nameRest
      | .error _ => .error ()

/-- Embeds the `Pattern` loop of `filepath.Match`: scan a chunk, try it at
the current position, fall back to the star loop when the chunk group began
with `*`, require the name to be exhausted when the pattern is, and on a
clean mismatch validate the pattern remainder before answering `false`. -/
def goMatchF : Nat → Str → Str → Except Unit Bool
  | 0, _, _ => .error ()
  | fuel + 1, pattern, name =>
    match pattern with
    | [] => .ok (decide (name = []))
    | _ :: _ =>
      match scanChunk pattern with
      | (star, chunk, rest) =>
        if star = true ∧ chunk = [] then .ok (decide ('/' ∉ name))
        else
          match matchChunk chunk name with
          | .error _ => .error ()
          | .ok (some t) =>
            if t = [] ∨ rest ≠ [] then goMatchF fuel rest t
            else if star then
              starLoop (goMatchF fuel) (chunksValidF fuel rest) chunk rest name
            else chunksValidF fuel rest
          | .ok none =>
            if star then
              starLoop (goMatchF fuel) (chunksValidF fuel rest) chunk rest name
            else chunksValidF fuel rest

/-- Embeds `filepath.Match` (Unix): `.error` is `ErrBadPattern`. -/
def goMatch (pattern name : Str) : Except Unit Bool :=
  goMatchF (pattern.length + 1) pattern name

example : goMatch (("*.tmp").data) (("z.tmp").data) = .ok true := by decide

example : goMatch (("*.tmp").data) (("z.go").data) = .ok false := by decide

example : goMatch (("a?c").data) (("abc").data) = .ok true := by decide

example : goMatch (("[a-c]x").data) (("bx").data) = .ok true := by decide

example : goMatch (("[^a-c]x").data) (("dx").data) = .ok true := by decide

example : goMatch (("[a-").data) (("b").data) = .error () := by decide

example : goMatch (("a*b").data) (("axyb").data) = .ok true := by decide

example : goMatch (("a*b").data) (("ax/yb").data) = .ok false := by decide

example : goMatch (("a*[").data) (("b").data) = .error () := by decide

example : goMatch (("a*b*[").data) (("c").data) = .error () := by decide

example : goMatch (("a[").data) (("b").data) = .error () := by decide

/-! ### Pattern collection: `collectFilesByPatterns` and friends -/

/-- Embeds Go `strings.Split(pattern, "**")`: split around each leftmost
non-overlapping occurrence of `**`. -/
def splitStarStar : Str → List Str
  | [] => [[]]
  | [c] => [[c]]
  | c :: d :: rest =>
    if c = '*' ∧ d = '*' then [] :: splitStarStar rest
    else
      match splitStarStar (d :: rest) with
      | p :: ps => (c :: p) :: ps
      | [] => [[c]]

/-- The number of leftmost non-overlapping occurrences of `**` in a string
(what "contains exactly one `**` token" counts). -/
def countStarStar : Str → Nat
  | [] => 0
  | [_] => 0
  | c :: d :: rest =>
    if c = '*' ∧ d = '*' then 1 + countStarStar rest
    else countStarStar (d :: rest)

/-- Embeds Go `strings.Contains(pattern, "**")`. -/
def containsStarStar : Str → Bool
  | [] => false
  | [_] => false
  | c :: d :: rest => (decide (c = '*') && decide (d = '*')) || containsStarStar (d :: rest)

theorem splitStarStar_ne_nil : ∀ p : Str, splitStarStar p ≠ []
  | [] => by simp [splitStarStar]
  | [c] => by simp [splitStarStar]
  | c :: d :: rest => by
    by_cases h : c = '*' ∧ d = '*'
    · simp [splitStarStar, h]
    · simp only [splitStarStar, if_neg h]
      cases hs : splitStarStar (d :: rest) with
      | nil => exact absurd hs (splitStarStar_ne_nil _)
      | cons q qs => simp

theorem splitStarStar_length : ∀ p : Str, (splitStarStar p).length = countStarStar p + 1
  | [] => by simp [splitStarStar, countStarStar]
  | [c] => by simp [splitStarStar, countStarStar]
  | c :: d :: rest => by
    by_cases h : c = '*' ∧ d = '*'
    · simp only [splitStarStar, countStarStar, if_pos h, List.length_cons,
        splitStarStar_length rest]
      omega
    · have ih := splitStarStar_length (d :: rest)
      simp only [splitStarStar, countStarStar, if_neg h]
      cases hs : splitStarStar (d :: rest) with
      | nil => exact absurd hs (splitStarStar_ne_nil _)
      | cons q qs =>
        rw [hs] at ih
        simpa using ih

/-- One `filepath.Walk` visit as the callback of `expandRecursivePattern`
sees it: the visited path, whether it is a directory, and whether the walk
passed a non-nil error for it. -/
structure WalkEntry where
  path : Str
  isDir : Bool
  errFlag : Bool
  deriving DecidableEq, Repr

/-- The filesystem environment of the pattern collector: `glob` is
`filepath.Glob` (pattern syntax errors included), `cwd` the working
directory for `filepath.Abs`, `statDir` the result of `os.Stat` (`none` when
stat fails, otherwise whether the path is a directory), `rootMissing`
whether `os.Stat` fails with `os.IsNotExist`, and `walk` the sequence of
`filepath.Walk` visits from a given root. -/
structure CollectEnv where
  glob : Str → Except Unit (List Str)
  cwd : Str
  statDir : Str → Option Bool
  rootMissing : Str → Bool
  walk : Str → List WalkEntry

/-- The walk callback of `expandRecursivePattern` (`src/unnamed/part_006`
lines 88–120) over the visit sequence: skip errored visits and directories;
with an empty suffix keep every file, otherwise keep files whose base name
matches the suffix (skipping files on a match error). -/
def walkMatches (sfx : Str) : List WalkEntry → List Str
  | [] => []
  | entry :: rest =>
    if entry.errFlag then walkMatches sfx rest
    else if entry.isDir then walkMatches sfx rest
    else if sfx = [] then entry.path :: walkMatches sfx rest
    else
      match goMatch sfx (goBase entry.path) with
      | .error _ => walkMatches sfx rest
      | .ok true => entry.path :: walkMatches sfx rest
      | .ok false => walkMatches sfx rest

/-- Embeds `expandRecursivePattern` (`src/unnamed/part_006` lines 54–123):
require exactly one `**` (two split parts), strip the trailing slash of the
part before it and the leading slash of the part after it, default the walk
root to `.`, return an empty match list when the root does not exist, and
otherwise walk the root collecting matching files. -/
def expandRecursivePattern (env : CollectEnv) (pattern : Str) :
    Except Unit (List Str) :=
  match splitStarStar pattern with
  | [basePath0, suffix0] =>
    let basePath1 :=
      if basePath0 ≠ [] ∧ (['/']).isSuffixOf basePath0 then basePath0.dropLast
      else basePath0
    let sfx :=
      if suffix0 ≠ [] ∧ (['/']).isPrefixOf suffix0 then suffix0.tail
      else suffix0
    let basePath := if basePath1 = [] then ['.'] else basePath1
    if env.rootMissing basePath then .ok []
    else .ok (walkMatches sfx (env.walk basePath))
  | _ => .error ()

/-- The match-processing inner loop of `collectFilesByPatterns`: resolve each
match to an absolute path, skip stat failures and directories, and append
paths not seen before (the seen-set and result list of the source are kept
in lockstep, so list membership models the map lookup). -/
def addMatches (env : CollectEnv) : List Str → List Str → List Str
  | [], acc => acc
  | m :: rest, acc =>
    let absPath := goAbs m env.cwd
    match env.statDir absPath with
    | none => addMatches env rest acc
    | some true => addMatches env rest acc
    | some false =>
      if absPath ∈ acc then addMatches env rest acc
      else addMatches env rest (acc ++ [absPath])

/-- The pattern loop of `collectFilesByPatterns` (`src/unnamed/part_006`
lines 11–51): `**` patterns expand recursively, the rest through `Glob`;
any pattern error aborts the whole collection. -/
def collectFilesByPatternsLoop (env : CollectEnv) :
    List Str → List Str → Except Unit (List Str)
  | [], acc => .ok acc
  | pattern :: rest, acc =>
    match (if containsStarStar pattern then expandRecursivePattern env pattern
           else env.glob pattern) with
    | .error e => .error e
    | .ok ms => collectFilesByPatternsLoop env rest (addMatches env ms acc)

/-- Embeds `collectFilesByPatterns`. -/
def collectFilesByPatterns (env : CollectEnv) (patterns : List Str) :
    Except Unit (List Str) :=
  collectFilesByPatternsLoop env patterns []

/-- The per-file exclude loop of `collectFilesByPatternsWithExclude`: test
the base name against each exclude pattern, stopping at the first match and
propagating a malformed exclude pattern as an error. -/
def excludeMatch (excludePatterns : List Str) (fileName : Str) : Except Unit Bool :=
  match excludePatterns with
  | [] => .ok false
  | p :: rest =>
    match goMatch p fileName with
    | .error e => .error e
    | .ok true => .ok true
    | .ok false => excludeMatch rest fileName

/-- The filter loop of `collectFilesByPatternsWithExclude`: keep files whose
base name matches no exclude pattern. -/
def filterExcluded (excludePatterns : List Str) : List Str → Except Unit (List Str)
  | [] => .ok []
  | file :: rest =>
    match excludeMatch excludePatterns (goBase file) with
    | .error e => .error e
    | .ok true => filterExcluded excludePatterns rest
    | .ok false =>
      match filterExcluded excludePatterns rest with
      | .error e => .error e
      | .ok fs => .ok (file :: fs)

/-- Embeds `collectFilesByPatternsWithExclude`
(`internal/utils/patterns.go` lines 44–80): collect the include patterns,
return that result verbatim when the exclude list is empty, and otherwise
filter by base-name glob matching. -/
def collectFilesByPatternsWithExclude (env : CollectEnv)
    (includePatterns excludePatterns : List Str) : Except Unit (List Str) :=
  match collectFilesByPatterns env includePatterns with
  | .error e => .error e
  | .ok allFiles =>
    if excludePatterns = [] then .ok allFiles
    else filterExcluded excludePatterns allFiles

theorem isPrefixOf_eq_true_iff (l s : Str) :
    l.isPrefixOf s = true ↔ ∃ t, s = l ++ t := by
  induction l generalizing s with
  | nil =>
    simp [List.isPrefixOf]
  | cons c l ih =>
    cases s with
    | nil => simp [List.isPrefixOf]
    | cons a s' =>
      simp only [List.isPrefixOf, Bool.and_eq_true, beq_iff_eq, ih, List.cons_append,
        List.cons.injEq]
      constructor
      · rintro ⟨rfl, t, rfl⟩
        exact ⟨t, rfl, rfl⟩
      · rintro ⟨t, rfl, rfl⟩
        exact ⟨rfl, t, rfl⟩

theorem matchChunkF_lit :
    ∀ (chunk : Str), (∀ c ∈ chunk, ¬c = '[' ∧ ¬c = '?' ∧ ¬c = '\\') →
    ∀ (fuel : Nat), chunk.length < fuel → ∀ (failed : Bool) (s : Str),
      matchChunkF fuel failed chunk s =
        .ok (if failed = true ∨ chunk.isPrefixOf s = false then none
             else some (s.drop chunk.length))
  | [], _, fuel, hf, failed, s => by
    obtain ⟨f, rfl⟩ : ∃ f, fuel = f + 1 := ⟨fuel - 1, by omega⟩
    cases failed <;> simp [matchChunkF, List.isPrefixOf]
  | c :: rest, hlit, fuel, hf, failed0, s => by
    obtain ⟨f, rfl⟩ : ∃ f, fuel = f + 1 := ⟨fuel - 1, by omega⟩
    have hc := hlit c (List.mem_cons_self c rest)
    have hrest : ∀ x ∈ rest, ¬x = '[' ∧ ¬x = '?' ∧ ¬x = '\\' :=
      fun x hx => hlit x (List.mem_cons_of_mem c hx)
    have hflt : rest.length < f := by
      simp only [List.length_cons] at hf
      omega
    have ih := matchChunkF_lit rest hrest f hflt
    simp only [matchChunkF, if_neg hc.1, if_neg hc.2.1, if_neg hc.2.2]
    cases s with
    | nil =>
      rw [show (decide (([] : Str) = [])) = true by simp]
      simp only [Bool.or_true, Bool.true_or]
      rw [ih]
      simp [List.isPrefixOf]
    | cons a s' =>
      rw [show (decide ((a :: s') = [])) = false by simp]
      simp only [Bool.or_false]
      cases failed0 with
      | true =>
        simp only [Bool.true_or, if_pos rfl]
        rw [ih]
        simp
      | false =>
        simp only [Bool.false_or]
        by_cases hac : a = c
        · subst hac
          rw [show (decide (¬(a :: s').headD '\x00' = a)) = false by simp]
          rw [if_neg (by simp : ¬(false : Bool) = true)]
          rw [ih]
          simp [List.isPrefixOf]
        · rw [show (decide (¬(a :: s').headD '\x00' = c)) = true by simp [hac]]
          rw [if_neg (by simp : ¬(false : Bool) = true)]
          rw [ih]
          have hca : (c == a) = false :=
            beq_eq_false_iff_ne.mpr (fun he => hac he.symm)
          simp [List.isPrefixOf, hca]

theorem goMatchF_cons (fuel : Nat) (c : Char) (p name : Str) :
    goMatchF (fuel + 1) (c :: p) name =
      (match scanChunk (c :: p) with
       | (star, chunk, rest) =>
         if star = true ∧ chunk = [] then .ok (decide ('/' ∉ name))
         else
           match matchChunk chunk name with
           | .error _ => .error ()
           | .ok (some t) =>
             if t = [] ∨ rest ≠ [] then goMatchF fuel rest t
             else if star then
               starLoop (goMatchF fuel) (chunksValidF fuel rest) chunk rest name
             else chunksValidF fuel rest
           | .ok none =>
             if star then
               starLoop (goMatchF fuel) (chunksValidF fuel rest) chunk rest name
             else chunksValidF fuel rest) := rfl

theorem goMatch_sep_pattern (name : Str) (h : '/' ∉ name) :
    goMatch (("sub/*.tmp").data) name = .ok false := by
  have hchunk : matchChunk (['s', 'u', 'b', '/'] : Str) name = .ok none := by
    have hpfx : (['s', 'u', 'b', '/'] : Str).isPrefixOf name = false := by
      cases hp : (['s', 'u', 'b', '/'] : Str).isPrefixOf name with
      | false => rfl
      | true =>
        obtain ⟨t, rfl⟩ := (isPrefixOf_eq_true_iff _ _).mp hp
        exact absurd (List.mem_append_left t (by decide)) h
    rw [matchChunk,
      matchChunkF_lit _ (by decide) _ (Nat.lt_succ_self _) false name]
    simp [hpfx]
  have hsc : scanChunk (("sub/*.tmp").data) =
      (false, (['s', 'u', 'b', '/'] : Str), ("*.tmp").data) := by decide
  have hvalid : chunksValidF 9 (("*.tmp").data) = .ok false := by decide
  rw [goMatch, show (("sub/*.tmp").data).length + 1 = 9 + 1 from rfl,
    show (("sub/*.tmp").data) = 's' :: ("ub/*.tmp").data from rfl,
    goMatchF_cons]
  rw [show ('s' :: ("ub/*.tmp").data) = ("sub/*.tmp").data from rfl, hsc]
  simp [hchunk, hvalid]

theorem excludeMatch_eq (fileName : Str) :
    ∀ exc : List Str, (∀ p ∈ exc, ∃ b, goMatch p fileName = .ok b) →
      excludeMatch exc fileName =
        .ok (exc.any (fun p => decide (goMatch p fileName = .ok true))) := by
  intro exc
  induction exc with
  | nil => intro _; simp [excludeMatch]
  | cons p rest ih =>
    intro hall
    obtain ⟨b, hb⟩ := hall p (List.mem_cons_self p rest)
    cases b with
    | true => simp [excludeMatch, hb]
    | false =>
      simp [excludeMatch, hb, ih (fun q hq => hall q (List.mem_cons_of_mem p hq))]

theorem filterExcluded_eq (exc : List Str) :
    ∀ files : List Str,
      (∀ f ∈ files, ∀ p ∈ exc, ∃ b, goMatch p (goBase f) = .ok b) →
      filterExcluded exc files =
        .ok (files.filter
          (fun f => !(exc.any (fun p => decide (goMatch p (goBase f) = .ok true))))) := by
  intro files
  induction files with
  | nil => intro _; simp [filterExcluded]
  | cons f rest ih =>
    intro hall
    have hf := hall f (List.mem_cons_self f rest)
    have hrest := ih (fun g hg => hall g (List.mem_cons_of_mem f hg))
    cases hany : exc.any (fun p => decide (goMatch p (goBase f) = .ok true)) with
    | true =>
      simp [filterExcluded, excludeMatch_eq (goBase f) exc hf, hany, hrest,
        List.filter_cons]
    | false =>
      simp [filterExcluded, excludeMatch_eq (goBase f) exc hf, hany, hrest,
        List.filter_cons]

/-- C7: with no exclude patterns the include result is returned verbatim
(errors included); when every exclude match succeeds, the result is exactly
the include result filtered to files whose base name matches no exclude
pattern; the glob is matched against the base name only — `*.tmp` matches
the base name of `x/y/z.tmp`, while a pattern containing a separator such as
`sub/*.tmp` matches no base name at all (base names contain no `/`). -/
theorem collectWithExclude_spec (env : CollectEnv) (inc exc : List Str) :
    (exc = [] →
      collectFilesByPatternsWithExclude env inc exc = collectFilesByPatterns env inc) ∧
    (∀ allFiles, collectFilesByPatterns env inc = .ok allFiles →
      (∀ f ∈ allFiles, ∀ p ∈ exc, ∃ b, goMatch p (goBase f) = .ok b) →
      collectFilesByPatternsWithExclude env inc exc =
        .ok (allFiles.filter
          (fun f => !(exc.any (fun p => decide (goMatch p (goBase f) = .ok true)))))) ∧
    goBase (("x/y/z.tmp").data) = ("z.tmp").data ∧
    goMatch (("*.tmp").data) (("z.tmp").data) = .ok true ∧
    (∀ name : Str, '/' ∉ name → goMatch (("sub/*.tmp").data) name = .ok false) := by
  refine ⟨?_, ?_, by decide, by decide, goMatch_sep_pattern⟩
  · rintro rfl
    cases h : collectFilesByPatterns env inc <;>
      simp [collectFilesByPatternsWithExclude, h]
  · intro allFiles hcol hall
    simp only [collectFilesByPatternsWithExclude, hcol]
    by_cases hexc : exc = []
    · subst hexc
      simp
    · simp [hexc, filterExcluded_eq exc allFiles hall]

/-- A concrete collection environment: globbing `*` in working directory
`/w` finds `x/y/z.tmp` and `main.go`, both regular files. -/
def sampleGlobEnv : CollectEnv :=
  { glob := fun p =>
      if p = ("*").data then .ok [("x/y/z.tmp").data, ("main.go").data]
      else .ok [],
    cwd := ("/w").data,
    statDir := fun _ => some false,
    rootMissing := fun _ => false,
    walk := fun _ => [] }

/-- C7 witness: `collectWithExclude_spec` discharged on the concrete
environment — excluding `*.tmp` removes `/w/x/y/z.tmp` (whose base name
matches) and keeps `/w/main.go`. -/
theorem collectWithExclude_spec_witness :
    collectFilesByPatternsWithExclude sampleGlobEnv [("*").data] [("*.tmp").data] =
      .ok [("/w/main.go").data] := by
  have h := (collectWithExclude_spec sampleGlobEnv [("*").data] [("*.tmp").data]).2.1
    [("/w/x/y/z.tmp").data, ("/w/main.go").data] (by decide) (by decide)
  rw [h]
  decide

/-- C8: recursive expansion of a `**` pattern fails (with the
invalid-pattern error) exactly when the number of `**` tokens differs from
one; and for a well-formed pattern whose computed walk root (the part before
`**` with its trailing slash stripped, defaulting to `.` when empty) does
not exist, the expansion succeeds with an empty result. -/
theorem expandRecursivePattern_spec (env : CollectEnv) (pattern : Str) :
    ((∃ e, expandRecursivePattern env pattern = .error e) ↔
      countStarStar pattern ≠ 1) ∧
    (∀ basePath0 suffix0, splitStarStar pattern = [basePath0, suffix0] →
      env.rootMissing
        (let basePath1 :=
          if basePath0 ≠ [] ∧ (['/']).isSuffixOf basePath0 then basePath0.dropLast
          else basePath0
         if basePath1 = [] then ['.'] else basePath1) = true →
      expandRecursivePattern env pattern = .ok []) := by
  have hlen := splitStarStar_length pattern
  constructor
  · rcases hsp : splitStarStar pattern with _ | ⟨b, _ | ⟨s, _ | ⟨t, rest⟩⟩⟩
    · exact absurd hsp (splitStarStar_ne_nil pattern)
    · rw [hsp] at hlen
      simp only [List.length_cons, List.length_nil] at hlen
      constructor
      · intro _
        omega
      · intro _
        exact ⟨(), by simp [expandRecursivePattern, hsp]⟩
    · rw [hsp] at hlen
      simp only [List.length_cons, List.length_nil] at hlen
      constructor
      · rintro ⟨e, he⟩
        simp only [expandRecursivePattern, hsp] at he
        repeat' split at he
        all_goals exact Except.noConfusion he
      · intro hc
        exact (hc (by omega)).elim
    · rw [hsp] at hlen
      simp only [List.length_cons] at hlen
      constructor
      · intro _
        omega
      · intro _
        exact ⟨(), by simp [expandRecursivePattern, hsp]⟩
  · intro b s hsp hmiss
    simp only [expandRecursivePattern, hsp]
    rw [if_pos hmiss]

/-- A collection environment in which every stat reports a missing path. -/
def missingRootEnv : CollectEnv :=
  { glob := fun _ => .ok [],
    cwd := ("/w").data,
    statDir := fun _ => none,
    rootMissing := fun _ => true,
    walk := fun _ => [] }

/-- C8 witness: `expandRecursivePattern_spec` discharged at the well-formed
pattern `src/**/*.go` whose walk root `src` does not exist. -/
theorem expandRecursivePattern_spec_witness :
    expandRecursivePattern missingRootEnv (("src/**/*.go").data) = .ok [] :=
  (expandRecursivePattern_spec missingRootEnv (("src/**/*.go").data)).2
    (("src/").data) (("/*.go").data) (by decide) (by decide)

end PM
